import Mathlib

/-!
# Verification of the queue engine of `lab0-c` (`queue.c`)

The queue is an intrusive, circular, doubly-linked list of string-valued
elements hanging off a sentinel node.  This file gives a shallow embedding of
`queue.c` at two levels:

* a *value-level* model in which a queue is the list of its element strings in
  head-to-tail order; strings are modelled as lists of bytes (a `Nat` value
  `b` in the model stands for the C byte `b + 1`, so model strings never
  contain the NUL terminator, exactly like C strings);
* a *pointer-level* model in which a heap maps addresses to nodes carrying
  `next`/`prev` pointers and a string payload, and every operation of
  `queue.c` is rendered as the same sequence of pointer reads and writes that
  the C code performs (loops take explicit fuel; a `none` result models a
  dereference of `NULL` or fuel exhaustion, neither of which occurs on queues
  satisfying the representation invariant).

The list-node primitives (`list_add`, `list_del`, `list_move`, emptiness and
singularity tests) live in `list.h`, which is not part of the source tree
here; they are modelled from the specification's description of the substrate
("link two nodes, detect emptiness, detect singleton, iterate" with the usual
Linux `list.h` semantics).  The libc routines `strcmp`, `strdup` and
`strncpy` are likewise modelled from their standard byte-wise semantics,
which is what the specification attributes to them.
-/

namespace LabQueue

/-- A C string, modelled as its list of bytes.  A model byte `b : Nat`
stands for the C character with value `b + 1`; consequently the model
carries no interior NUL bytes, exactly like a C string. -/
abbrev Str := List Nat

/-- `strcmp` from libc, modelled from the spec: byte-wise comparison of two
NUL-terminated strings, returning the difference of the first differing
byte pair (the terminator comparing below every real byte).  Under the
`b ↦ b + 1` byte encoding the terminator is the value `0`, so a string
that is a proper prefix of another compares below it. -/
def strcmp : Str → Str → Int
  | [], [] => 0
  | [], b :: _ => 0 - ((b : Int) + 1)
  | a :: _, [] => (a : Int) + 1
  | a :: s, b :: t => if a = b then strcmp s t else (a : Int) - (b : Int)

/-- The ascending order used by `q_sort`: `strcmp a b ≤ 0`. -/
def strLe (a b : Str) : Prop := strcmp a b ≤ 0

instance : DecidableRel strLe := fun a b => by
  unfold strLe
  infer_instance

theorem strcmp_self (a : Str) : strcmp a a = 0 := by
  induction a with
  | nil => rfl
  | cons x s ih => simp [strcmp, ih]

theorem strcmp_swap (a b : Str) : strcmp a b = -strcmp b a := by
  induction a generalizing b with
  | nil => cases b <;> simp [strcmp]
  | cons x s ih =>
    cases b with
    | nil => simp [strcmp]
    | cons y t =>
      by_cases h : x = y
      · subst h; simpa [strcmp] using ih t
      · have h' : y ≠ x := fun hc => h hc.symm
        simp only [strcmp, if_neg h, if_neg h']
        omega

theorem strcmp_eq_zero_iff {a b : Str} : strcmp a b = 0 ↔ a = b := by
  induction a generalizing b with
  | nil =>
    cases b with
    | nil => simp [strcmp]
    | cons y t =>
      simp only [strcmp]
      constructor
      · intro h; omega
      · intro h; exact absurd h (by simp)
  | cons x s ih =>
    cases b with
    | nil =>
      simp only [strcmp]
      constructor
      · intro h; omega
      · intro h; exact absurd h (by simp)
    | cons y t =>
      by_cases h : x = y
      · subst h; simp [strcmp, ih]
      · simp only [strcmp, if_neg h]
        constructor
        · intro hz
          exact absurd (by omega : (x : Int) = y) (by exact_mod_cast h)
        · intro hc; injection hc with h1 _; exact absurd h1 h

theorem strLe_total (a b : Str) : strLe a b ∨ strLe b a := by
  unfold strLe
  rcases le_or_lt (strcmp a b) 0 with h | h
  · exact Or.inl h
  · right
    rw [strcmp_swap]
    omega

theorem strLe_trans {a b c : Str} (h1 : strLe a b) (h2 : strLe b c) : strLe a c := by
  unfold strLe at *
  induction a generalizing b c with
  | nil =>
    cases c with
    | nil => simp [strcmp]
    | cons z u => simp [strcmp]; omega
  | cons x s ih =>
    cases b with
    | nil => simp [strcmp] at h1; omega
    | cons y t =>
      cases c with
      | nil => simp [strcmp] at h2; omega
      | cons z u =>
        simp only [strcmp] at h1 h2 ⊢
        by_cases hxy : x = y
        · subst hxy
          by_cases hyz : x = z
          · subst hyz
            simp only [if_pos rfl] at *
            exact ih (b := t) (c := u) h1 h2
          · simp only [if_pos rfl] at h1
            simp only [if_neg hyz] at h2 ⊢
            omega
        · simp only [if_neg hxy] at h1
          by_cases hyz : y = z
          · subst hyz
            simp only [if_neg hxy]
            omega
          · simp only [if_neg hyz] at h2
            have hxz : x ≠ z := by
              intro h; subst h
              have : (x : Int) ≠ y := by exact_mod_cast hxy
              omega
            simp only [if_neg hxz]
            have : (x : Int) ≠ y := by exact_mod_cast hxy
            have : (y : Int) ≠ z := by exact_mod_cast hyz
            omega

theorem strLe_antisymm {a b : Str} (h1 : strLe a b) (h2 : strLe b a) : a = b := by
  unfold strLe at *
  rw [strcmp_swap] at h2
  exact strcmp_eq_zero_iff.1 (by omega)

theorem strLe_of_lt {a b : Str} (h : strcmp a b < 0) : strLe a b := le_of_lt h

theorem strLe_of_not_lt {a b : Str} (h : ¬ strcmp a b < 0) : strLe b a := by
  unfold strLe
  rw [strcmp_swap]
  omega

/-!
## Value-level model of the sort (`merge`, `mergesort`, `q_sort`)

A chain of elements is modelled as the list of the elements in next-order.
The functions are generic in the element type `α` with a projection
`val : α → Str` standing for `list_entry(node, element_t, list)->value`:
instantiating `α := Str` gives the observable value-level behaviour, and
instantiating `α` with element identities (addresses) makes element identity
observable, which is what stability is about.
-/

variable {α : Type}

/-- The slow/fast splitting loop shared by `mergesort` (lines 334-338) and
`q_delete_mid` (lines 212-216): the number of iterations of a loop whose
fast pointer consumes two links of `l` per step. -/
def fastSteps : List α → Nat
  | [] => 0
  | [_] => 0
  | _ :: _ :: rest => fastSteps rest + 1

theorem fastSteps_eq (l : List α) : fastSteps l = l.length / 2 := by
  induction l using fastSteps.induct with
  | case1 => simp [fastSteps]
  | case2 a => simp [fastSteps]
  | case3 a b rest ih => simp [fastSteps, ih]; omega

/-- `merge` (queue.c lines 304-326): repeatedly take the chain head whose
value compares strictly below the other (`strcmp … < 0`), otherwise the head
of the right chain; when one chain runs out, append the other whole. -/
def merge (val : α → Str) : List α → List α → List α
  | [], r => r
  | l, [] => l
  | l :: ls, r :: rs =>
    if strcmp (val l) (val r) < 0 then l :: merge val ls (r :: rs)
    else r :: merge val (l :: ls) rs

/-- `mergesort` (queue.c lines 328-345): find the structural midpoint with
the slow/fast loop (`mid` ends at index `fastSteps tail`), split the chain
after it, sort both halves recursively and merge. -/
def mergesort (val : α → Str) : List α → List α
  | [] => []
  | [x] => [x]
  | x :: y :: rest =>
    merge val (mergesort val ((x :: y :: rest).take (fastSteps (y :: rest) + 1)))
              (mergesort val ((x :: y :: rest).drop (fastSteps (y :: rest) + 1)))
termination_by l => l.length
decreasing_by
  all_goals simp only [List.length_take, List.length_drop, List.length_cons, fastSteps_eq]
  all_goals omega

theorem mergesort_eq3 (val : α → Str) (x y : α) (rest : List α) :
    mergesort val (x :: y :: rest) =
      merge val (mergesort val ((x :: y :: rest).take (fastSteps (y :: rest) + 1)))
                (mergesort val ((x :: y :: rest).drop (fastSteps (y :: rest) + 1))) := by
  rw [mergesort]

/-- `q_sort` (queue.c lines 347-363) at value level: no-op on empty and
singular queues, otherwise `mergesort` of the detached chain. -/
def q_sort : List Str → List Str
  | [] => []
  | [x] => [x]
  | vs => mergesort (fun s => s) vs

/-- The order on chain elements induced by `val`. -/
def keyLe (val : α → Str) (a b : α) : Prop := strLe (val a) (val b)

theorem merge_perm (val : α → Str) (l r : List α) :
    List.Perm (merge val l r) (l ++ r) := by
  induction l, r using merge.induct val with
  | case1 r => simp [merge]
  | case2 l => simp [merge]
  | case3 l ls r rs h ih =>
    rw [merge, if_pos h]
    simpa using ih.cons l
  | case4 l ls r rs h ih =>
    rw [merge, if_neg h]
    refine (ih.cons r).trans ?_
    exact (List.perm_middle).symm

theorem merge_sorted (val : α → Str) {l r : List α}
    (hl : List.Sorted (keyLe val) l) (hr : List.Sorted (keyLe val) r) :
    List.Sorted (keyLe val) (merge val l r) := by
  induction l, r using merge.induct val with
  | case1 r => simpa [merge] using hr
  | case2 l => simpa [merge] using hl
  | case3 l ls r rs h ih =>
    rw [merge, if_pos h]
    rw [List.sorted_cons] at hl ⊢
    refine ⟨?_, ih hl.2 hr⟩
    intro b hb
    have hb' := (merge_perm val ls (r :: rs)).mem_iff.1 hb
    rw [List.mem_append] at hb'
    rcases hb' with hb' | hb'
    · exact hl.1 b hb'
    · rcases List.mem_cons.1 hb' with rfl | hb'
      · exact strLe_of_lt h
      · rw [List.sorted_cons] at hr
        exact strLe_trans (strLe_of_lt h) (hr.1 b hb')
  | case4 l ls r rs h ih =>
    rw [merge, if_neg h]
    rw [List.sorted_cons] at hr ⊢
    refine ⟨?_, ih hl hr.2⟩
    intro b hb
    have hb' := (merge_perm val (l :: ls) rs).mem_iff.1 hb
    rw [List.mem_append] at hb'
    rcases hb' with hb' | hb'
    · rcases List.mem_cons.1 hb' with rfl | hb'
      · exact strLe_of_not_lt h
      · rw [List.sorted_cons] at hl
        exact strLe_trans (strLe_of_not_lt h) (hl.1 b hb')
    · exact hr.1 b hb'

theorem mergesort_perm (val : α → Str) (l : List α) :
    List.Perm (mergesort val l) l := by
  induction l using mergesort.induct val with
  | case1 => simp [mergesort]
  | case2 x => simp [mergesort]
  | case3 x y rest ih1 ih2 =>
    rw [mergesort_eq3]
    refine ((merge_perm val _ _).trans ?_)
    refine (ih1.append ih2).trans ?_
    rw [List.take_append_drop]

theorem mergesort_sorted (val : α → Str) (l : List α) :
    List.Sorted (keyLe val) (mergesort val l) := by
  induction l using mergesort.induct val with
  | case1 => simp [mergesort]
  | case2 x => simp [mergesort]
  | case3 x y rest ih1 ih2 =>
    rw [mergesort_eq3]
    exact merge_sorted val ih1 ih2

theorem q_sort_eq_mergesort (vs : List Str) (h : 2 ≤ vs.length) :
    q_sort vs = mergesort (fun s => s) vs := by
  match vs, h with
  | x :: y :: rest, _ => rfl

theorem keyLe_id (a b : Str) : keyLe (fun s => s) a b ↔ strLe a b := Iff.rfl

/-!
## Value-level model of `q_delete_dup`

`q_delete_dup` (queue.c lines 231-262) walks the chain once.  Whenever the
current element's value equals its successor's, the inner loop (lines
245-251) unlinks every following element of the equal run, after which lines
253-255 unlink the current element itself, and scanning resumes at the first
element past the run.  The functions below are that control flow on the
chain-as-list, again generic in the element type.
-/

/-- The inner loop of `q_delete_dup` (lines 245-251): drop the leading run of
elements whose value equals `x` and return the rest of the chain. -/
def dropRunK (val : α → Str) (x : Str) : List α → List α
  | [] => []
  | y :: l => if strcmp x (val y) = 0 then dropRunK val x l else y :: l

theorem dropRunK_length_le (val : α → Str) (x : Str) (l : List α) :
    (dropRunK val x l).length ≤ l.length := by
  induction l with
  | nil => simp [dropRunK]
  | cons y t ih =>
    by_cases h : strcmp x (val y) = 0
    · rw [dropRunK, if_pos h]; exact Nat.le_succ_of_le ih
    · rw [dropRunK, if_neg h]

theorem dropRunK_suffix (val : α → Str) (x : Str) (l : List α) :
    (dropRunK val x l).IsSuffix l := by
  induction l with
  | nil => simp [dropRunK]
  | cons y t ih =>
    by_cases h : strcmp x (val y) = 0
    · rw [dropRunK, if_pos h]
      exact ih.trans (List.suffix_cons y t)
    · rw [dropRunK, if_neg h]

/-- The outer loop of `q_delete_dup` (lines 238-260): advance over elements
whose successor differs; on a match, delete the whole run (inner loop plus
lines 252-255) and continue after it. -/
def delDupGo (val : α → Str) : List α → List α
  | [] => []
  | [x] => [x]
  | x :: y :: l =>
    if strcmp (val x) (val y) = 0 then delDupGo val (dropRunK val (val x) (y :: l))
    else x :: delDupGo val (y :: l)
termination_by l => l.length
decreasing_by
  · refine Nat.lt_of_le_of_lt (dropRunK_length_le _ _ _) ?_
    simp only [List.length_cons]
    omega
  · simp only [List.length_cons]
    omega

theorem delDupGo_eq3 (val : α → Str) (x y : α) (l : List α) :
    delDupGo val (x :: y :: l) =
      if strcmp (val x) (val y) = 0 then delDupGo val (dropRunK val (val x) (y :: l))
      else x :: delDupGo val (y :: l) := by
  rw [delDupGo]

/-!
## Handle-level operations (value model)

A queue handle is `Option (List Str)`: `none` is the C `NULL` handle, and a
present queue is the list of its element values from head to tail.  Each
function returns the C return value paired with the post-state of the queue.
These model the success path of allocation (`malloc`/`strdup` succeeding),
and — except for `new_element`, treated separately below — non-null string
arguments.
-/

/-- `q_insert_head` (lines 75-90) on a non-null string: link a fresh copy of
`s` right after the sentinel. -/
def q_insert_head : Option (List Str) → Str → Bool × Option (List Str)
  | none, _ => (false, none)
  | some vs, s => (true, some (s :: vs))

/-- `q_insert_tail` (lines 99-114) on a non-null string: link a fresh copy of
`s` right before the sentinel. -/
def q_insert_tail : Option (List Str) → Str → Bool × Option (List Str)
  | none, _ => (false, none)
  | some vs, s => (true, some (vs ++ [s]))

/-- `q_remove_head` (lines 130-148): unlink and hand back the first element;
`none` on a null or empty queue.  The `sp` buffer copy is modelled
separately by `remove_copy_buf` below. -/
def q_remove_head : Option (List Str) → Option Str × Option (List Str)
  | none => (none, none)
  | some [] => (none, some [])
  | some (x :: vs) => (some x, some vs)

/-- `q_remove_tail` (lines 154-170): unlink and hand back the last element. -/
def q_remove_tail : Option (List Str) → Option Str × Option (List Str)
  | none => (none, none)
  | some [] => (none, some [])
  | some (x :: vs) => (some ((x :: vs).getLast (by simp)), some (x :: vs).dropLast)

/-- `q_size` (lines 186-197): 0 on null or empty, else a full traversal
count. -/
def q_size : Option (List Str) → Nat
  | none => 0
  | some vs => vs.length

/-- `q_delete_mid` (lines 206-220): false on null or empty; otherwise the
slow/fast loop stops with `slow` on the element at index `fastSteps vs`
(slow starts on the first element and advances once per fast double-step),
which is unlinked and released. -/
def q_delete_mid : Option (List Str) → Bool × Option (List Str)
  | none => (false, none)
  | some [] => (false, some [])
  | some (x :: vs) => (true, some ((x :: vs).eraseIdx (fastSteps (x :: vs))))

/-- `q_delete_dup` (lines 231-262): false on a null handle (line 233-235),
otherwise delete every run of adjacent equal values, first member included. -/
def q_delete_dup : Option (List Str) → Bool × Option (List Str)
  | none => (false, none)
  | some vs => (true, some (delDupGo (fun s => s) vs))

/-!
### `q_delete_dup` on sorted input deletes exactly the duplicated values
-/

theorem sorted_head_notmem {x y : Str} {t : List Str}
    (hs : List.Sorted strLe (x :: y :: t)) (hxy : x ≠ y) : x ∉ y :: t := by
  intro hmem
  rw [List.sorted_cons] at hs
  obtain ⟨hx, hs'⟩ := hs
  rw [List.sorted_cons] at hs'
  obtain ⟨hy, _⟩ := hs'
  rcases List.mem_cons.1 hmem with rfl | hmem
  · exact hxy rfl
  · exact hxy (strLe_antisymm (hx y (List.mem_cons_self y t)) (hy x hmem))

theorem sorted_run {x : Str} {l : List Str} (hs : List.Sorted strLe (x :: l)) :
    ∃ k s, l = List.replicate k x ++ s ∧ x ∉ s ∧
      dropRunK (fun v => v) x l = s := by
  induction l with
  | nil => exact ⟨0, [], by simp, by simp, by simp [dropRunK]⟩
  | cons y t ih =>
    by_cases hxy : x = y
    · subst hxy
      have hs' : List.Sorted strLe (x :: t) :=
        List.Pairwise.sublist (by simp [List.Sublist.cons₂, List.sublist_cons_self]) hs
      obtain ⟨k, s, hl, hns, hdr⟩ := ih hs'
      refine ⟨k + 1, s, ?_, hns, ?_⟩
      · simp [List.replicate_succ, hl]
      · rw [dropRunK, if_pos (strcmp_self x), hdr]
    · refine ⟨0, y :: t, by simp, sorted_head_notmem hs hxy, ?_⟩
      rw [dropRunK, if_neg (fun hc => hxy (strcmp_eq_zero_iff.1 hc))]

theorem delDupGo_sorted :
    ∀ vs : List Str, List.Sorted strLe vs →
      delDupGo (fun v => v) vs = vs.filter (fun v => vs.count v == 1) := by
  intro vs
  induction vs using delDupGo.induct (fun v : Str => v) with
  | case1 => intro _; simp [delDupGo]
  | case2 x => intro _; simp [delDupGo, List.count_cons]
  | case3 x y l heq ih =>
    intro hs
    have hxy : x = y := strcmp_eq_zero_iff.1 heq
    subst hxy
    have hsx : List.Sorted strLe (x :: l) :=
      List.Pairwise.sublist (by simp [List.Sublist.cons₂, List.sublist_cons_self]) hs
    obtain ⟨k, s, hl, hns, hdr⟩ := sorted_run hsx
    have hrec : dropRunK (fun v : Str => v) x (x :: l) = s := by
      rw [dropRunK, if_pos (strcmp_self x), hdr]
    have hsub : s.Sublist (x :: l) := by
      rw [hl]
      exact (List.sublist_append_right (List.replicate k x) s).trans
        (List.sublist_cons_self x (List.replicate k x ++ s))
    have hsorted_s : List.Sorted strLe s := List.Pairwise.sublist hsub hsx
    rw [hrec] at ih
    rw [delDupGo_eq3]
    simp only [if_pos heq]
    rw [hrec, ih hsorted_s]
    have hcx : (x :: x :: l).count x = k + 2 := by
      rw [hl]
      simp [List.count_cons, List.count_append, List.count_replicate,
        List.count_eq_zero.2 hns]
    have hcongr : ∀ v ∈ s, ((x :: x :: l).count v == 1) = (s.count v == 1) := by
      intro v hv
      have hvx : ¬ (v = x) := fun hc => hns (hc ▸ hv)
      have hxv : ¬ (x = v) := fun hc => hvx hc.symm
      rw [hl]
      simp [List.count_cons, List.count_append, List.count_replicate, hvx, hxv]
    generalize hp : (fun v : Str => ((x :: x :: l).count v == 1)) = p
    have hpx : ¬ p x := by
      rw [← hp]
      show ¬ (((x :: x :: l).count x == 1) = true)
      rw [hcx]
      simp
    have hps : ∀ v ∈ s, p v = (s.count v == 1) := by
      intro v hv
      rw [← hp]
      exact hcongr v hv
    have hrep : (List.replicate k x).filter p = [] := by
      refine List.filter_eq_nil_iff.2 ?_
      intro a ha
      rw [List.eq_of_mem_replicate ha]
      exact hpx
    calc s.filter (fun v => s.count v == 1)
        = s.filter p := (List.filter_congr hps).symm
      _ = (x :: x :: l).filter p := by
          rw [hl, List.filter_cons_of_neg hpx, List.filter_cons_of_neg hpx,
            List.filter_append, hrep]
          simp
  | case4 x y l hne ih =>
    intro hs
    have hxy : x ≠ y := fun hc => hne (hc ▸ strcmp_self x)
    have hnm : x ∉ y :: l := sorted_head_notmem hs hxy
    have hs' : List.Sorted strLe (y :: l) := (List.sorted_cons.1 hs).2
    rw [delDupGo_eq3, if_neg hne, ih hs']
    have hcx : ((x :: y :: l).count x == 1) = true := by
      simp [List.count_cons, List.count_eq_zero.2 hnm]
    have hcongr : ∀ v ∈ y :: l, ((y :: l).count v == 1) = ((x :: y :: l).count v == 1) := by
      intro v hv
      have hvx : ¬ (v = x) := fun hc => hnm (hc ▸ hv)
      simp [List.count_cons, hvx]
    rw [List.filter_congr hcongr]
    have hfc : (x :: y :: l).filter (fun v => (x :: y :: l).count v == 1)
        = x :: (y :: l).filter (fun v => (x :: y :: l).count v == 1) := by
      apply List.filter_cons_of_pos
      exact hcx
    rw [hfc]

/-- C5 — on an ascending queue, `q_delete_dup` succeeds and the survivors
are exactly the values occurring exactly once, in order. -/
theorem q_delete_dup_sorted (vs : List Str) (h : List.Sorted strLe vs) :
    q_delete_dup (some vs) = (true, some (vs.filter (fun v => vs.count v == 1))) := by
  rw [q_delete_dup, delDupGo_sorted vs h]

/-!
## Model of the `sp` buffer copy in `q_remove_head` / `q_remove_tail`

Lines 140-143 (and identically 162-165) run, with `bufsize : size_t`, a
`strncpy` of the element value into `sp` with count `bufsize - 1`, then a
`strncpy` of a one-byte NUL literal into `sp + bufsize - 1` with count `1`.
`strncpy(dst, src, n)` is modelled from the spec's byte-wise description: it
writes exactly `n` bytes to `dst` — the first `min n (strlen src)` copied
from `src`, the rest NUL padding — and reads `src` only up to and including
its terminator.  `bufsize - 1` is `size_t` arithmetic, so for `bufsize = 0`
it wraps around to `2^64 - 1`.  Bytes in buffers are C byte values (the
payload byte `b` of the model is the C byte `b + 1`, and NUL is `0`).
-/

/-- One more than `SIZE_MAX`: `size_t` arithmetic is modulo this. -/
def sizeMod : Nat := 2 ^ 64

/-- The C expression `bufsize - 1`, evaluated in `size_t` arithmetic. -/
def bufsizeSub1 (bufsize : Nat) : Nat := (bufsize + (sizeMod - 1)) % sizeMod

/-- The `n` bytes written by `strncpy(dst, src, n)`, in offset order:
copied source bytes, then NUL padding. -/
def strncpy_bytes (src : Str) (n : Nat) : List Nat :=
  (List.range n).map (fun i => if i < src.length then src.getD i 0 + 1 else 0)

/-- The offsets of `sp` written by the copy of lines 140-143: offsets
`0 … bufsize-2` by the first `strncpy`, plus offset `bufsize-1` for the
terminator — with `bufsize - 1` computed in `size_t` arithmetic. -/
def remove_copy_writes (bufsize : Nat) : List Nat :=
  List.range (bufsizeSub1 bufsize) ++ [bufsizeSub1 bufsize]

/-- The offsets of the source string read by the copy: `strncpy` stops at
the source terminator (offset `src.length`) or after `bufsize - 1` bytes,
whichever comes first. -/
def remove_copy_reads (src : Str) (bufsize : Nat) : List Nat :=
  List.range (min (bufsizeSub1 bufsize) (src.length + 1))

/-- The final contents of `sp[0 … bufsize-1]` after the two `strncpy`
calls, as C byte values. -/
def remove_copy_buf (src : Str) (bufsize : Nat) : List Nat :=
  strncpy_bytes src (bufsizeSub1 bufsize) ++ [0]

/-!
## Element-level model of `new_element` and the inserts

`new_element` (lines 43-66) stores a NULL payload when its argument is NULL
(line 62) and a `strdup` copy otherwise; both inserts link whatever
`new_element` built.  This model makes the payload's nullability
observable; allocation is taken to succeed.
-/

/-- An `element_t`: one (possibly NULL) owned string payload. -/
structure element_t where
  value : Option Str
deriving DecidableEq

/-- `new_element` (lines 43-66), success path of both allocations. -/
def new_element (s : Option Str) : element_t := ⟨s⟩

/-- `q_insert_head` (lines 75-90) at element level. -/
def q_insert_head_e : Option (List element_t) → Option Str → Bool × Option (List element_t)
  | none, _ => (false, none)
  | some es, s => (true, some (new_element s :: es))

/-- `q_insert_tail` (lines 99-114) at element level. -/
def q_insert_tail_e : Option (List element_t) → Option Str → Bool × Option (List element_t)
  | none, _ => (false, none)
  | some es, s => (true, some (es ++ [new_element s]))

/-!
## Pointer-level model

A heap maps addresses to nodes; a node is a `list_head` (two link pointers)
together with the string payload of the enclosing `element_t` (ignored for
the sentinel).  Every operation of `queue.c` is rendered as the same
sequence of pointer reads and writes the C code performs, in the same
order; loops take explicit fuel.  A `none` result models either a NULL
dereference or fuel exhaustion — neither occurs on a queue satisfying the
representation invariant when enough fuel is supplied, which is part of
what the theorems below prove.  (In two loops, `dm_loop` and `ms_split`, a
cursor that the C code lets become NULL and would dereference strictly
later is dereferenced at its assignment; on invariant-satisfying queues the
cursor is never NULL, so the conflation is invisible to the theorems.)

The `list.h` primitives are not part of the source tree; they are modelled
from the spec's substrate description with the usual Linux `list.h`
semantics: `__list_add(new, prev, next)` performs `next->prev = new;
new->next = next; new->prev = prev; prev->next = new`, `list_del(e)`
performs `e->next->prev = e->prev; e->prev->next = e->next`, and
`list_move` is `list_del` followed by `list_add` at the head.  Releasing an
element only affects the allocator, so the model leaves released (now
unreachable) nodes in the heap.
-/

/-- A heap address; the sentinel of a queue is an address like any other. -/
abbrev Addr := Nat

/-- A C pointer: an address, or NULL. -/
abbrev Ptr := Option Addr

/-- One node: the two link pointers plus the payload of the enclosing
`element_t` (junk for the sentinel). -/
structure Node where
  next : Ptr
  prev : Ptr
  value : Str
deriving DecidableEq

/-- The heap.  Addresses outside the queue hold junk the code never
reaches. -/
abbrev Heap := Addr → Node

/-- Write the `next` field of the node at `a`. -/
def setNext (h : Heap) (a : Addr) (p : Ptr) : Heap :=
  fun b => if b = a then { h a with next := p } else h b

/-- Write the `prev` field of the node at `a`. -/
def setPrev (h : Heap) (a : Addr) (p : Ptr) : Heap :=
  fun b => if b = a then { h a with prev := p } else h b

/-- Store a whole fresh node at `a` (allocation plus initialisation). -/
def writeNode (h : Heap) (a : Addr) (n : Node) : Heap :=
  fun b => if b = a then n else h b

/-- Modelled from the spec: `list_add(new, head)` of `list.h`. -/
def list_add (h : Heap) (nw hd : Addr) : Option Heap := do
  let nxt ← (h hd).next
  let h1 := setPrev h nxt (some nw)
  let h2 := setNext h1 nw (some nxt)
  let h3 := setPrev h2 nw (some hd)
  some (setNext h3 hd (some nw))

/-- Modelled from the spec: `list_add_tail(new, head)` of `list.h`. -/
def list_add_tail (h : Heap) (nw hd : Addr) : Option Heap := do
  let prv ← (h hd).prev
  let h1 := setPrev h hd (some nw)
  let h2 := setNext h1 nw (some hd)
  let h3 := setPrev h2 nw (some prv)
  some (setNext h3 prv (some nw))

/-- Modelled from the spec: `list_del(e)` of `list.h`. -/
def list_del (h : Heap) (e : Addr) : Option Heap := do
  let nxt ← (h e).next
  let prv ← (h e).prev
  let h1 := setPrev h nxt (some prv)
  some (setNext h1 prv (some nxt))

/-- Modelled from the spec: `list_move(e, head)` of `list.h`. -/
def list_move (h : Heap) (e hd : Addr) : Option Heap := do
  let h1 ← list_del h e
  list_add h1 e hd

/-- `q_insert_head` (lines 75-90) at pointer level, allocation succeeding
at the fresh address `nw`: `new_element` stores NULL links and the copied
string (lines 51-56), then `list_add` links it after the sentinel. -/
def q_insert_head_ptr (h : Heap) (hd nw : Addr) (s : Str) : Option Heap :=
  list_add (writeNode h nw ⟨none, none, s⟩) nw hd

/-- `q_insert_tail` (lines 99-114) at pointer level. -/
def q_insert_tail_ptr (h : Heap) (hd nw : Addr) (s : Str) : Option Heap :=
  list_add_tail (writeNode h nw ⟨none, none, s⟩) nw hd

/-- `q_remove_head` (lines 130-148) at pointer level: NULL on an empty
queue, otherwise unlink and return the first element.  The `sp` copy has no
heap effect and is modelled by `remove_copy_buf`. -/
def q_remove_head_ptr (h : Heap) (hd : Addr) : Option (Heap × Ptr) :=
  if (h hd).next = some hd then some (h, none)
  else do
    let first ← (h hd).next
    let h2 ← list_del h first
    some (h2, some first)

/-- `q_remove_tail` (lines 154-170) at pointer level. -/
def q_remove_tail_ptr (h : Heap) (hd : Addr) : Option (Heap × Ptr) :=
  if (h hd).next = some hd then some (h, none)
  else do
    let lastp ← (h hd).prev
    let h2 ← list_del h lastp
    some (h2, some lastp)

/-- The `list_for_each` counting loop of `q_size` (lines 192-195). -/
def size_loop (h : Heap) (hd : Addr) : Nat → Ptr → Option Nat
  | 0, _ => none
  | fuel + 1, p =>
    if p = some hd then some 0
    else do
      let a ← p
      let k ← size_loop h hd fuel ((h a).next)
      some (k + 1)

/-- `q_size` (lines 186-197) at pointer level. -/
def q_size_ptr (h : Heap) (hd : Addr) (fuel : Nat) : Option Nat :=
  if (h hd).next = some hd then some 0
  else size_loop h hd fuel ((h hd).next)

/-- The slow/fast loop of `q_delete_mid` (lines 212-216): `slow` starts at
the first element and advances one link per iteration, `fast` two; the loop
stops when `fast` reaches the sentinel or the element before it. -/
def dm_loop (h : Heap) (hd : Addr) : Nat → Ptr → Ptr → Option Addr
  | 0, _, _ => none
  | fuel + 1, slow, fast =>
    if fast = some hd then slow
    else do
      let fa ← fast
      if (h fa).next = some hd then slow
      else do
        let sa ← slow
        let fb ← (h fa).next
        dm_loop h hd fuel ((h sa).next) ((h fb).next)

/-- `q_delete_mid` (lines 206-220) at pointer level. -/
def q_delete_mid_ptr (h : Heap) (hd : Addr) (fuel : Nat) : Option (Bool × Heap) :=
  if (h hd).next = some hd then some (false, h)
  else do
    let slow ← dm_loop h hd fuel ((h hd).next) ((h hd).next)
    let h2 ← list_del h slow
    some (true, h2)

/-- The inner run-deleting loop of `q_delete_dup` (lines 245-251): unlink
each successor of `c` whose value equals `c`'s; returns the final `next`. -/
def dup_inner (h : Heap) (hd c : Addr) : Nat → Ptr → Option (Heap × Ptr)
  | 0, _ => none
  | fuel + 1, nxt =>
    if nxt = some hd then some (h, nxt)
    else do
      let n ← nxt
      if strcmp (h c).value (h n).value = 0 then do
        let h1 := setNext h c ((h n).next)
        let nn ← (h1 n).next
        let h2 := setPrev h1 nn (some c)
        dup_inner h2 hd c fuel ((h2 c).next)
      else some (h, nxt)

/-- The outer loop of `q_delete_dup` (lines 238-260). -/
def dup_outer (h : Heap) (hd : Addr) : Nat → Ptr → Option Heap
  | 0, _ => none
  | fuel + 1, curr =>
    if curr = some hd then some h
    else do
      let c ← curr
      let nx := (h c).next
      if nx = some hd then some h
      else do
        let n ← nx
        if strcmp (h c).value (h n).value = 0 then do
          let hn ← dup_inner h hd c fuel nx
          let pa ← (hn.1 c).prev
          let h2 := setNext hn.1 pa hn.2
          let na ← hn.2
          let h3 := setPrev h2 na ((h2 c).prev)
          dup_outer h3 hd fuel hn.2
        else dup_outer h hd fuel nx

/-- `q_delete_dup` (lines 231-262) at pointer level, non-null handle. -/
def q_delete_dup_ptr (h : Heap) (hd : Addr) (fuel : Nat) : Option Heap :=
  dup_outer h hd fuel ((h hd).next)

/-- The relinking loop of `q_swap` (lines 272-282), one pair per
iteration, exactly the six writes of the body in program order. -/
def swap_loop (h : Heap) (hd : Addr) : Nat → Ptr → Option Heap
  | 0, _ => none
  | fuel + 1, curr =>
    if curr = some hd then some h
    else do
      let c ← curr
      let tmp := (h c).next
      if tmp = some hd then some h
      else do
        let t ← tmp
        let h1 := setNext h c ((h t).next)
        let h2 := setPrev h1 t ((h1 c).prev)
        let pa ← (h2 c).prev
        let h3 := setNext h2 pa tmp
        let h4 := setPrev h3 c tmp
        let na ← (h4 t).next
        let h5 := setPrev h4 na (some c)
        let h6 := setNext h5 t (some c)
        swap_loop h6 hd fuel ((h6 c).next)

/-- `q_swap` (lines 267-283) at pointer level: no-op on empty or singular
queues, else the pair-swapping loop from the first element. -/
def q_swap_ptr (h : Heap) (hd : Addr) (fuel : Nat) : Option Heap :=
  if (h hd).next = some hd then some h
  else if (h hd).next = (h hd).prev then some h
  else swap_loop h hd fuel ((h hd).next)

/-- The `list_for_each_safe` loop of `q_reverse` (lines 298-301): move each
element in turn to the front, iterating via the pre-captured successor. -/
def rev_loop (h : Heap) (hd : Addr) : Nat → Ptr → Ptr → Option Heap
  | 0, _, _ => none
  | fuel + 1, iter, nxt =>
    if iter = some hd then some h
    else do
      let ia ← iter
      let h2 ← list_move h ia hd
      let na ← nxt
      rev_loop h2 hd fuel (some na) ((h2 na).next)

/-- `q_reverse` (lines 292-302) at pointer level. -/
def q_reverse_ptr (h : Heap) (hd : Addr) (fuel : Nat) : Option Heap :=
  if (h hd).next = some hd then some h
  else if (h hd).next = (h hd).prev then some h
  else do
    let i0 ← (h hd).next
    rev_loop h hd fuel (some i0) ((h i0).next)

/-- The splitting loop of `mergesort` (lines 334-338): `mid` starts at the
chain head and advances once per fast double-step over the NULL-terminated
chain. -/
def ms_split (h : Heap) : Nat → Addr → Ptr → Option Addr
  | 0, _, _ => none
  | fuel + 1, mid, fast =>
    match fast with
    | none => some mid
    | some fa =>
      match (h fa).next with
      | none => some mid
      | some fb => do
        let m ← (h mid).next
        ms_split h fuel m ((h fb).next)

/-- `merge` (lines 304-326) at pointer level.  The C loop builds the output
through a tail pointer `ptr` and a running `prev`; each chosen node's
`prev` is set when it is appended and its `next` is overwritten by the next
append (or, for the last chosen node, by the final splice of the remaining
chain, whose own head `prev` is also set).  The recursion below performs
exactly those writes: the chosen head gets `prev := prevp` now and
`next := head of the merged rest` after the recursive call returns. -/
def merge_ptr : Nat → Heap → Ptr → Ptr → Ptr → Option (Heap × Addr)
  | 0, _, _, _, _ => none
  | _ + 1, _, none, none, _ => none
  | _ + 1, h, none, some ra, prevp => some (setPrev h ra prevp, ra)
  | _ + 1, h, some la, none, prevp => some (setPrev h la prevp, la)
  | fuel + 1, h, some la, some ra, prevp =>
    if strcmp (h la).value (h ra).value < 0 then do
      let h1 := setPrev h la prevp
      let hr ← merge_ptr fuel h1 ((h1 la).next) (some ra) (some la)
      some (setNext hr.1 la (some hr.2), la)
    else do
      let h1 := setPrev h ra prevp
      let hr ← merge_ptr fuel h1 (some la) ((h1 ra).next) (some ra)
      some (setNext hr.1 ra (some hr.2), ra)

/-- `mergesort` (lines 328-345) at pointer level: a singleton chain is
returned as is; otherwise split after `mid`, sort the right part (before
the cut, exactly as the code does), cut, sort the left part, merge. -/
def mergesort_ptr : Nat → Heap → Addr → Option (Heap × Addr)
  | 0, _, _ => none
  | fuel + 1, h, head =>
    match (h head).next with
    | none => some (h, head)
    | some _ => do
      let mid ← ms_split h (fuel + 1) head ((h head).next)
      let rstart ← (h mid).next
      let hr ← mergesort_ptr fuel h rstart
      let h2 := setNext hr.1 mid none
      let hl ← mergesort_ptr fuel h2 head
      merge_ptr (fuel + 1) hl.1 (some hl.2) (some hr.2) none

/-- The final walk of `q_sort` (lines 358-360) to the last element of the
sorted NULL-terminated chain. -/
def sort_tail_walk (h : Heap) : Nat → Addr → Option Addr
  | 0, _ => none
  | fuel + 1, s =>
    match (h s).next with
    | none => some s
    | some t => sort_tail_walk h fuel t

/-- `q_sort` (lines 347-363) at pointer level: no-op on empty or singular
queues; otherwise cut the circle before the sentinel, `mergesort` the
chain, reattach it to the sentinel and close both ends. -/
def q_sort_ptr (h : Heap) (hd : Addr) (fuel : Nat) : Option Heap :=
  if (h hd).next = some hd then some h
  else if (h hd).next = (h hd).prev then some h
  else do
    let pa ← (h hd).prev
    let h1 := setNext h pa none
    let st ← (h1 hd).next
    let hs ← mergesort_ptr fuel h1 st
    let h3 := setNext hs.1 hd (some hs.2)
    let h4 := setPrev h3 hs.2 (some hd)
    let tl ← sort_tail_walk h4 fuel hs.2
    let h5 := setNext h4 tl (some hd)
    some (setPrev h5 hd (some tl))

/-!
### The representation invariant

`chain h p l q` says: starting from the pointer `p` and repeatedly
following `next`, one passes exactly through the addresses in `l` and is
then left with the pointer `q`.  `chainP` is the same along `prev`.  The
circular invariant of the spec — from the sentinel, `next` visits every
live element once and returns to the sentinel, and `prev` is the exact
reverse traversal — is `represents`. -/
def chain (h : Heap) : Ptr → List Addr → Ptr → Prop
  | p, [], q => p = q
  | p, a :: l, q => p = some a ∧ chain h ((h a).next) l q

/-- `chain` along the `prev` field. -/
def chainP (h : Heap) : Ptr → List Addr → Ptr → Prop
  | p, [], q => p = q
  | p, a :: l, q => p = some a ∧ chainP h ((h a).prev) l q

def chainDec (h : Heap) : (p : Ptr) → (l : List Addr) → (q : Ptr) → Decidable (chain h p l q)
  | p, [], q => inferInstanceAs (Decidable (p = q))
  | p, a :: l, q =>
    have : Decidable (chain h ((h a).next) l q) := chainDec h _ l q
    inferInstanceAs (Decidable (p = some a ∧ chain h ((h a).next) l q))

instance (h : Heap) (p : Ptr) (l : List Addr) (q : Ptr) : Decidable (chain h p l q) :=
  chainDec h p l q

def chainPDec (h : Heap) : (p : Ptr) → (l : List Addr) → (q : Ptr) → Decidable (chainP h p l q)
  | p, [], q => inferInstanceAs (Decidable (p = q))
  | p, a :: l, q =>
    have : Decidable (chainP h ((h a).prev) l q) := chainPDec h _ l q
    inferInstanceAs (Decidable (p = some a ∧ chainP h ((h a).prev) l q))

instance (h : Heap) (p : Ptr) (l : List Addr) (q : Ptr) : Decidable (chainP h p l q) :=
  chainPDec h p l q

/-- The circular doubly-linked invariant: the sentinel and the live
elements are pairwise distinct, following `next` from the sentinel visits
exactly the elements of `ids` in order and returns to the sentinel, and
following `prev` from the sentinel visits them in reverse order and
returns to the sentinel. -/
def represents (h : Heap) (hd : Addr) (ids : List Addr) : Prop :=
  (hd :: ids).Nodup ∧
    chain h (some hd) (hd :: ids) (some hd) ∧
    chainP h (some hd) (hd :: ids.reverse) (some hd)

instance (h : Heap) (hd : Addr) (ids : List Addr) : Decidable (represents h hd ids) := by
  unfold represents
  infer_instance

/-- The payload values along a list of addresses. -/
def vals (h : Heap) (ids : List Addr) : List Str :=
  ids.map fun a => (h a).value

/-- The order `q_swap` produces: adjacent pairs exchanged, a trailing
unpaired element left in place. -/
def swapPairs {α : Type} : List α → List α
  | [] => []
  | [x] => [x]
  | x :: y :: l => y :: x :: swapPairs l

/-!
### Heap access and frame lemmas
-/

theorem prev_setNext (h : Heap) (a : Addr) (p : Ptr) (b : Addr) :
    ((setNext h a p) b).prev = (h b).prev := by
  unfold setNext
  by_cases hb : b = a <;> simp [hb]

theorem value_setNext (h : Heap) (a : Addr) (p : Ptr) (b : Addr) :
    ((setNext h a p) b).value = (h b).value := by
  unfold setNext
  by_cases hb : b = a <;> simp [hb]

theorem next_setNext_self (h : Heap) (a : Addr) (p : Ptr) :
    ((setNext h a p) a).next = p := by
  simp [setNext]

theorem next_setNext_ne (h : Heap) (a : Addr) (p : Ptr) {b : Addr} (hb : b ≠ a) :
    ((setNext h a p) b).next = (h b).next := by
  simp [setNext, hb]

theorem next_setPrev (h : Heap) (a : Addr) (p : Ptr) (b : Addr) :
    ((setPrev h a p) b).next = (h b).next := by
  unfold setPrev
  by_cases hb : b = a <;> simp [hb]

theorem value_setPrev (h : Heap) (a : Addr) (p : Ptr) (b : Addr) :
    ((setPrev h a p) b).value = (h b).value := by
  unfold setPrev
  by_cases hb : b = a <;> simp [hb]

theorem prev_setPrev_self (h : Heap) (a : Addr) (p : Ptr) :
    ((setPrev h a p) a).prev = p := by
  simp [setPrev]

theorem prev_setPrev_ne (h : Heap) (a : Addr) (p : Ptr) {b : Addr} (hb : b ≠ a) :
    ((setPrev h a p) b).prev = (h b).prev := by
  simp [setPrev, hb]

theorem writeNode_self (h : Heap) (a : Addr) (n : Node) : (writeNode h a n) a = n := by
  simp [writeNode]

theorem writeNode_ne (h : Heap) (a : Addr) (n : Node) {b : Addr} (hb : b ≠ a) :
    (writeNode h a n) b = h b := by
  simp [writeNode, hb]

/-!
### Chain lemmas
-/

theorem chain_nil {h : Heap} {p q : Ptr} : chain h p [] q ↔ p = q := Iff.rfl

theorem chain_cons {h : Heap} {p q : Ptr} {a : Addr} {l : List Addr} :
    chain h p (a :: l) q ↔ p = some a ∧ chain h ((h a).next) l q := Iff.rfl

theorem chainP_nil {h : Heap} {p q : Ptr} : chainP h p [] q ↔ p = q := Iff.rfl

theorem chainP_cons {h : Heap} {p q : Ptr} {a : Addr} {l : List Addr} :
    chainP h p (a :: l) q ↔ p = some a ∧ chainP h ((h a).prev) l q := Iff.rfl

theorem chain_congr {h h' : Heap} {l : List Addr}
    (hn : ∀ a ∈ l, (h' a).next = (h a).next) :
    ∀ {p q : Ptr}, chain h p l q → chain h' p l q := by
  induction l with
  | nil => intro p q hc; exact hc
  | cons a l ih =>
    intro p q hc
    obtain ⟨hp, hc⟩ := hc
    refine ⟨hp, ?_⟩
    rw [hn a (List.mem_cons_self a l)]
    exact ih (fun b hb => hn b (List.mem_cons_of_mem _ hb)) hc

theorem chainP_congr {h h' : Heap} {l : List Addr}
    (hn : ∀ a ∈ l, (h' a).prev = (h a).prev) :
    ∀ {p q : Ptr}, chainP h p l q → chainP h' p l q := by
  induction l with
  | nil => intro p q hc; exact hc
  | cons a l ih =>
    intro p q hc
    obtain ⟨hp, hc⟩ := hc
    refine ⟨hp, ?_⟩
    rw [hn a (List.mem_cons_self a l)]
    exact ih (fun b hb => hn b (List.mem_cons_of_mem _ hb)) hc

theorem chain_setPrev {h : Heap} {l : List Addr} {p q : Ptr} (a : Addr) (p' : Ptr)
    (hc : chain h p l q) : chain (setPrev h a p') p l q :=
  chain_congr (fun b _ => next_setPrev h a p' b) hc

theorem chain_setNext_notmem {h : Heap} {l : List Addr} {p q : Ptr} {a : Addr} (p' : Ptr)
    (ha : a ∉ l) (hc : chain h p l q) : chain (setNext h a p') p l q :=
  chain_congr (fun b hb => next_setNext_ne h a p'
    (fun hba : b = a => ha (hba ▸ hb))) hc

theorem chain_writeNode_notmem {h : Heap} {l : List Addr} {p q : Ptr} {a : Addr} (n : Node)
    (ha : a ∉ l) (hc : chain h p l q) : chain (writeNode h a n) p l q :=
  chain_congr (fun b hb => by rw [writeNode_ne h a n (fun hba => ha (hba ▸ hb))]) hc

theorem chainP_setNext {h : Heap} {l : List Addr} {p q : Ptr} (a : Addr) (p' : Ptr)
    (hc : chainP h p l q) : chainP (setNext h a p') p l q :=
  chainP_congr (fun b _ => prev_setNext h a p' b) hc

theorem chainP_setPrev_notmem {h : Heap} {l : List Addr} {p q : Ptr} {a : Addr} (p' : Ptr)
    (ha : a ∉ l) (hc : chainP h p l q) : chainP (setPrev h a p') p l q :=
  chainP_congr (fun b hb => prev_setPrev_ne h a p'
    (fun hba : b = a => ha (hba ▸ hb))) hc

theorem chainP_writeNode_notmem {h : Heap} {l : List Addr} {p q : Ptr} {a : Addr} (n : Node)
    (ha : a ∉ l) (hc : chainP h p l q) : chainP (writeNode h a n) p l q :=
  chainP_congr (fun b hb => by rw [writeNode_ne h a n (fun hba => ha (hba ▸ hb))]) hc

theorem chain_append_of {h : Heap} {l1 l2 : List Addr} {p r q : Ptr}
    (h1 : chain h p l1 r) (h2 : chain h r l2 q) : chain h p (l1 ++ l2) q := by
  induction l1 generalizing p with
  | nil => rw [chain_nil] at h1; rw [List.nil_append, h1]; exact h2
  | cons a l ih =>
    obtain ⟨hp, hc⟩ := h1
    exact ⟨hp, ih hc⟩

theorem chain_append_split {h : Heap} {l1 l2 : List Addr} {p q : Ptr}
    (hc : chain h p (l1 ++ l2) q) : ∃ r, chain h p l1 r ∧ chain h r l2 q := by
  induction l1 generalizing p with
  | nil => exact ⟨p, rfl, hc⟩
  | cons a l ih =>
    obtain ⟨hp, hc⟩ := hc
    obtain ⟨r, hr1, hr2⟩ := ih hc
    exact ⟨r, ⟨hp, hr1⟩, hr2⟩

theorem chainP_append_of {h : Heap} {l1 l2 : List Addr} {p r q : Ptr}
    (h1 : chainP h p l1 r) (h2 : chainP h r l2 q) : chainP h p (l1 ++ l2) q := by
  induction l1 generalizing p with
  | nil => rw [chainP_nil] at h1; rw [List.nil_append, h1]; exact h2
  | cons a l ih =>
    obtain ⟨hp, hc⟩ := h1
    exact ⟨hp, ih hc⟩

theorem chainP_append_split {h : Heap} {l1 l2 : List Addr} {p q : Ptr}
    (hc : chainP h p (l1 ++ l2) q) : ∃ r, chainP h p l1 r ∧ chainP h r l2 q := by
  induction l1 generalizing p with
  | nil => exact ⟨p, rfl, hc⟩
  | cons a l ih =>
    obtain ⟨hp, hc⟩ := hc
    obtain ⟨r, hr1, hr2⟩ := ih hc
    exact ⟨r, ⟨hp, hr1⟩, hr2⟩

/-!
### Ring projections and the unlink/link surgery lemmas
-/

theorem ring_next_eq {h : Heap} {hd : Addr} {ids : List Addr}
    (hfw : chain h (some hd) (hd :: ids) (some hd)) :
    (h hd).next = some (ids.headD hd) := by
  obtain ⟨-, hfw'⟩ := hfw
  cases ids with
  | nil => exact hfw'
  | cons a t => exact hfw'.1

theorem ring_prev_eq {h : Heap} {hd : Addr} {ids : List Addr}
    (hbw : chainP h (some hd) (hd :: ids.reverse) (some hd)) :
    (h hd).prev = some (ids.getLastD hd) := by
  obtain ⟨-, hbw'⟩ := hbw
  rcases List.eq_nil_or_concat ids with rfl | ⟨l, a, rfl⟩
  · exact hbw'
  · rw [List.concat_eq_append] at hbw' ⊢
    rw [List.reverse_concat] at hbw'
    rw [List.getLastD_concat]
    exact hbw'.1

/-- Unlinking the element `e` from anywhere in the ring preserves the
invariant on the remaining elements. -/
theorem list_del_ring {h : Heap} {hd e : Addr} {A B : List Addr}
    (hr : represents h hd (A ++ e :: B)) :
    ∃ h', list_del h e = some h' ∧ represents h' hd (A ++ B) := by
  obtain ⟨hnd, hfw, hbw⟩ := hr
  -- basic distinctness facts
  have hnd' := hnd
  rw [List.nodup_cons, List.nodup_append, List.nodup_cons] at hnd'
  obtain ⟨hhd, hA, ⟨heB, hB⟩, hdis⟩ := hnd'
  have hhdA : hd ∉ A := fun hmem => hhd (List.mem_append_left _ hmem)
  have hhdB : hd ∉ B := fun hmem => hhd (List.mem_append_right _ (List.mem_cons_of_mem _ hmem))
  -- decompose the forward ring around e
  have hfw' : chain h (some hd) ((hd :: A) ++ (e :: B)) (some hd) := hfw
  obtain ⟨r, c1, c2⟩ := chain_append_split hfw'
  obtain ⟨hre, c2'⟩ := c2
  subst hre
  -- decompose the backward ring around e
  have hrev : (A ++ e :: B).reverse = B.reverse ++ e :: A.reverse := by
    simp
  rw [hrev] at hbw
  have hbw' : chainP h (some hd) ((hd :: B.reverse) ++ (e :: A.reverse)) (some hd) := hbw
  obtain ⟨r', d1, d2⟩ := chainP_append_split hbw'
  obtain ⟨hre', d2'⟩ := d2
  subst hre'
  -- predecessor of e in the ring, with the ring prefix ending at it
  obtain ⟨pA, I, hpv, hIA⟩ :
      ∃ pA I, (h e).prev = some pA ∧ hd :: A = I ++ [pA] := by
    rcases List.eq_nil_or_concat A with rfl | ⟨l, a, rfl⟩
    · exact ⟨hd, [], d2', by simp⟩
    · rw [List.concat_eq_append] at d2' ⊢
      rw [List.reverse_concat] at d2'
      exact ⟨a, hd :: l, d2'.1, by simp⟩
  -- successor of e in the ring, with the reverse-ring prefix ending at it
  obtain ⟨nB, J, hnx, hJB⟩ :
      ∃ nB J, (h e).next = some nB ∧ hd :: B.reverse = J ++ [nB] := by
    cases B with
    | nil => exact ⟨hd, [], c2', by simp⟩
    | cons b t => exact ⟨b, hd :: t.reverse, c2'.1, by simp⟩
  rw [hnx] at c2'
  rw [hpv] at d2'
  -- membership of the two neighbours
  have hpAmem : pA = hd ∨ pA ∈ A := by
    have : pA ∈ hd :: A := by
      rw [hIA]
      exact List.mem_append_right _ (List.mem_singleton_self pA)
    exact List.mem_cons.1 this
  have hnBmem : nB = hd ∨ nB ∈ B := by
    have : nB ∈ hd :: B.reverse := by
      rw [hJB]
      exact List.mem_append_right _ (List.mem_singleton_self nB)
    rcases List.mem_cons.1 this with hc | hc
    · exact Or.inl hc
    · exact Or.inr (List.mem_reverse.1 hc)
  have hpAB : pA ∉ B := by
    rcases hpAmem with rfl | hmem
    · exact hhdB
    · exact fun hb => hdis hmem (List.mem_cons_of_mem _ hb)
  have hnBA : nB ∉ A := by
    rcases hnBmem with rfl | hmem
    · exact hhdA
    · exact fun ha => hdis ha (List.mem_cons_of_mem _ hmem)
  have hndA : (hd :: A).Nodup := by
    refine List.Nodup.sublist ?_ hnd
    exact List.Sublist.cons₂ hd (List.sublist_append_left A (e :: B))
  have hndBr : (hd :: B.reverse).Nodup := by
    rw [List.nodup_cons, List.nodup_reverse]
    exact ⟨fun hmem => hhdB (List.mem_reverse.1 hmem), hB⟩
  have hpAI : pA ∉ I := by
    rw [hIA, List.nodup_append] at hndA
    exact fun hmem => hndA.2.2 hmem (List.mem_singleton_self pA)
  have hnBJ : nB ∉ J := by
    rw [hJB, List.nodup_append] at hndBr
    exact fun hmem => hndBr.2.2 hmem (List.mem_singleton_self nB)
  -- the new heap and the field-level view of it
  refine ⟨setNext (setPrev h nB (some pA)) pA (some nB), ?_, ?_, ?_, ?_⟩
  · simp [list_del, hnx, hpv]
  · -- Nodup of the remaining ring
    refine List.Nodup.sublist ?_ hnd
    refine List.Sublist.cons₂ hd ?_
    exact List.Sublist.append_left (List.sublist_cons_self e B) A
  · -- forward ring
    have hnexts : ∀ b, b ≠ pA →
        ((setNext (setPrev h nB (some pA)) pA (some nB)) b).next = (h b).next := by
      intro b hb
      rw [next_setNext_ne _ _ _ hb, next_setPrev]
    have hgoal : chain (setNext (setPrev h nB (some pA)) pA (some nB))
        (some hd) ((I ++ [pA]) ++ B) (some hd) := by
      refine chain_append_of (r := some nB) ?_ ?_
      · -- over I and then the relinked pA
        obtain ⟨r2, cI, cpa⟩ := chain_append_split (hIA ▸ c1)
        obtain ⟨hr2, -⟩ := cpa
        subst hr2
        refine chain_append_of (r := some pA) ?_ ?_
        · exact chain_congr (fun b hb => hnexts b (fun hbe => hpAI (hbe ▸ hb))) cI
        · exact ⟨rfl, next_setNext_self _ _ _⟩
      · -- over B
        exact chain_congr (fun b hb => hnexts b (fun hbe => hpAB (hbe ▸ hb))) c2'
    have hlist : hd :: (A ++ B) = (I ++ [pA]) ++ B := by
      rw [← hIA]
      simp
    rw [hlist]
    exact hgoal
  · -- backward ring
    have hprevs : ∀ b, b ≠ nB →
        ((setNext (setPrev h nB (some pA)) pA (some nB)) b).prev = (h b).prev := by
      intro b hb
      rw [prev_setNext, prev_setPrev_ne _ _ _ hb]
    have hprevnB : ((setNext (setPrev h nB (some pA)) pA (some nB)) nB).prev = some pA := by
      rw [prev_setNext, prev_setPrev_self]
    have hgoal : chainP (setNext (setPrev h nB (some pA)) pA (some nB))
        (some hd) ((J ++ [nB]) ++ A.reverse) (some hd) := by
      refine chainP_append_of (r := some pA) ?_ ?_
      · obtain ⟨r2, dJ, dnb⟩ := chainP_append_split (hJB ▸ d1)
        obtain ⟨hr2, -⟩ := dnb
        subst hr2
        refine chainP_append_of (r := some nB) ?_ ?_
        · exact chainP_congr (fun b hb => hprevs b (fun hbe => hnBJ (hbe ▸ hb))) dJ
        · exact ⟨rfl, hprevnB⟩
      · exact chainP_congr (fun b hb => hprevs b
          (fun hbe => hnBA (hbe ▸ List.mem_reverse.1 hb))) d2'
    have hlist : hd :: (A ++ B).reverse = (J ++ [nB]) ++ A.reverse := by
      rw [← hJB]
      simp
    rw [hlist]
    exact hgoal

theorem cons_eq_append_last {hd : Addr} (ids : List Addr) :
    ∃ I, hd :: ids = I ++ [ids.getLastD hd] := by
  rcases List.eq_nil_or_concat ids with rfl | ⟨l, a, rfl⟩
  · exact ⟨[], by simp⟩
  · rw [List.concat_eq_append, List.getLastD_concat]
    exact ⟨hd :: l, by simp⟩

theorem cons_reverse_eq_append_head {hd : Addr} (ids : List Addr) :
    ∃ J, hd :: ids.reverse = J ++ [ids.headD hd] := by
  cases ids with
  | nil => exact ⟨[], by simp⟩
  | cons a t => exact ⟨hd :: t.reverse, by simp⟩

/-- Linking a fresh node right after the sentinel (the `list_add` of
`q_insert_head`) puts it at the head of the ring. -/
theorem list_add_ring {h : Heap} {hd nw : Addr} {ids : List Addr}
    (hr : represents h hd ids) (hnw : nw ∉ hd :: ids) :
    ∃ h', list_add h nw hd = some h' ∧ represents h' hd (nw :: ids) := by
  obtain ⟨hnd, hfw, hbw⟩ := hr
  have hnwhd : nw ≠ hd := fun hc => hnw (hc ▸ List.mem_cons_self hd ids)
  have hnwids : nw ∉ ids := fun hc => hnw (List.mem_cons_of_mem _ hc)
  have hnext : (h hd).next = some (ids.headD hd) := ring_next_eq hfw
  have hn0 : ids.headD hd = hd ∨ ids.headD hd ∈ ids := by
    cases ids with
    | nil => exact Or.inl rfl
    | cons a t => exact Or.inr (List.mem_cons_self a t)
  have hn0nw : ids.headD hd ≠ nw := by
    rcases hn0 with hc | hc
    · exact fun he => hnwhd (he.symm.trans hc)
    · exact fun he => hnwids (he ▸ hc)
  refine ⟨setNext (setPrev (setNext (setPrev h (ids.headD hd) (some nw)) nw
      (some (ids.headD hd))) nw (some hd)) hd (some nw), ?_, ?_, ?_, ?_⟩
  · simp [list_add, hnext]
  · rw [List.nodup_cons] at hnd ⊢
    rw [List.nodup_cons]
    refine ⟨?_, hnwids, hnd.2⟩
    intro hc
    rcases List.mem_cons.1 hc with hc | hc
    · exact hnwhd hc.symm
    · exact hnd.1 hc
  · -- forward ring
    have hnext_hd : ((setNext (setPrev (setNext (setPrev h (ids.headD hd) (some nw)) nw
        (some (ids.headD hd))) nw (some hd)) hd (some nw)) hd).next = some nw :=
      next_setNext_self _ _ _
    have hnext_nw : ((setNext (setPrev (setNext (setPrev h (ids.headD hd) (some nw)) nw
        (some (ids.headD hd))) nw (some hd)) hd (some nw)) nw).next = some (ids.headD hd) := by
      rw [next_setNext_ne _ _ _ hnwhd, next_setPrev, next_setNext_self]
    have hnext_other : ∀ b, b ≠ hd → b ≠ nw →
        ((setNext (setPrev (setNext (setPrev h (ids.headD hd) (some nw)) nw
          (some (ids.headD hd))) nw (some hd)) hd (some nw)) b).next = (h b).next := by
      intro b h1 h2
      rw [next_setNext_ne _ _ _ h1, next_setPrev, next_setNext_ne _ _ _ h2, next_setPrev]
    have hfw2 : chain h (some (ids.headD hd)) ids (some hd) := by
      have h2 := hfw.2
      rwa [hnext] at h2
    have hfw3 : chain (setNext (setPrev (setNext (setPrev h (ids.headD hd) (some nw)) nw
        (some (ids.headD hd))) nw (some hd)) hd (some nw))
        (some (ids.headD hd)) ids (some hd) := by
      refine chain_congr (fun b hb => hnext_other b ?_ ?_) hfw2
      · rw [List.nodup_cons] at hnd
        exact fun hc => hnd.1 (hc ▸ hb)
      · exact fun hc => hnwids (hc ▸ hb)
    exact ⟨rfl, hnext_hd, by rw [hnext_nw]; exact hfw3⟩
  · -- backward ring
    have hprev_nw : ((setNext (setPrev (setNext (setPrev h (ids.headD hd) (some nw)) nw
        (some (ids.headD hd))) nw (some hd)) hd (some nw)) nw).prev = some hd := by
      rw [prev_setNext, prev_setPrev_self]
    have hprev_n0 : ((setNext (setPrev (setNext (setPrev h (ids.headD hd) (some nw)) nw
        (some (ids.headD hd))) nw (some hd)) hd (some nw)) (ids.headD hd)).prev = some nw := by
      rw [prev_setNext, prev_setPrev_ne _ _ _ hn0nw, prev_setNext, prev_setPrev_self]
    have hprev_other : ∀ b, b ≠ ids.headD hd → b ≠ nw →
        ((setNext (setPrev (setNext (setPrev h (ids.headD hd) (some nw)) nw
          (some (ids.headD hd))) nw (some hd)) hd (some nw)) b).prev = (h b).prev := by
      intro b h1 h2
      rw [prev_setNext, prev_setPrev_ne _ _ _ h2, prev_setNext, prev_setPrev_ne _ _ _ h1]
    obtain ⟨J, hJ⟩ := @cons_reverse_eq_append_head hd ids
    have hlist : hd :: (nw :: ids).reverse = (J ++ [ids.headD hd]) ++ [nw] := by
      rw [← hJ]
      simp
    rw [hlist]
    have hndJ : (hd :: ids.reverse).Nodup := by
      rw [List.nodup_cons, List.nodup_reverse]
      rw [List.nodup_cons] at hnd
      exact ⟨fun hc => hnd.1 (List.mem_reverse.1 hc), hnd.2⟩
    have hn0J : ids.headD hd ∉ J := by
      rw [hJ, List.nodup_append] at hndJ
      exact fun hc => hndJ.2.2 hc (List.mem_singleton_self _)
    have hnwJ : nw ∉ J := by
      intro hc
      have : nw ∈ hd :: ids.reverse := by
        rw [hJ]
        exact List.mem_append_left _ hc
      rcases List.mem_cons.1 this with hc' | hc'
      · exact hnwhd hc'
      · exact hnwids (List.mem_reverse.1 hc')
    obtain ⟨r2, dJ, dn0⟩ := chainP_append_split (hJ ▸ hbw)
    obtain ⟨hr2, -⟩ := dn0
    subst hr2
    refine chainP_append_of (r := some nw) ?_ ?_
    · refine chainP_append_of (r := some (ids.headD hd)) ?_ ?_
      · refine chainP_congr (fun b hb => hprev_other b ?_ ?_) dJ
        · exact fun hc => hn0J (hc ▸ hb)
        · exact fun hc => hnwJ (hc ▸ hb)
      · exact ⟨rfl, hprev_n0⟩
    · exact ⟨rfl, hprev_nw⟩

/-- Linking a fresh node right before the sentinel (the `list_add_tail` of
`q_insert_tail`) puts it at the tail of the ring. -/
theorem list_add_tail_ring {h : Heap} {hd nw : Addr} {ids : List Addr}
    (hr : represents h hd ids) (hnw : nw ∉ hd :: ids) :
    ∃ h', list_add_tail h nw hd = some h' ∧ represents h' hd (ids ++ [nw]) := by
  obtain ⟨hnd, hfw, hbw⟩ := hr
  have hnwhd : nw ≠ hd := fun hc => hnw (hc ▸ List.mem_cons_self hd ids)
  have hnwids : nw ∉ ids := fun hc => hnw (List.mem_cons_of_mem _ hc)
  have hprev : (h hd).prev = some (ids.getLastD hd) := ring_prev_eq hbw
  have hp0 : ids.getLastD hd = hd ∨ ids.getLastD hd ∈ ids := by
    rcases List.eq_nil_or_concat ids with rfl | ⟨l, a, rfl⟩
    · exact Or.inl rfl
    · rw [List.concat_eq_append, List.getLastD_concat]
      exact Or.inr (List.mem_append_right _ (List.mem_singleton_self a))
  have hp0nw : ids.getLastD hd ≠ nw := by
    rcases hp0 with hc | hc
    · exact fun he => hnwhd (he.symm.trans hc)
    · exact fun he => hnwids (he ▸ hc)
  refine ⟨setNext (setPrev (setNext (setPrev h hd (some nw)) nw (some hd)) nw
      (some (ids.getLastD hd))) (ids.getLastD hd) (some nw), ?_, ?_, ?_, ?_⟩
  · simp [list_add_tail, hprev]
  · rw [List.nodup_cons] at hnd
    rw [List.nodup_cons]
    constructor
    · intro hc
      rcases List.mem_append.1 hc with hc | hc
      · exact hnd.1 hc
      · exact hnwhd (List.mem_singleton.1 hc).symm
    · rw [List.nodup_append]
      refine ⟨hnd.2, List.nodup_singleton nw, ?_⟩
      intro b hb hc
      rw [List.mem_singleton] at hc
      exact hnwids (hc ▸ hb)
  · -- forward ring
    have hnext_p0 : ((setNext (setPrev (setNext (setPrev h hd (some nw)) nw (some hd)) nw
        (some (ids.getLastD hd))) (ids.getLastD hd) (some nw)) (ids.getLastD hd)).next
        = some nw := next_setNext_self _ _ _
    have hnext_nw : ((setNext (setPrev (setNext (setPrev h hd (some nw)) nw (some hd)) nw
        (some (ids.getLastD hd))) (ids.getLastD hd) (some nw)) nw).next = some hd := by
      rw [next_setNext_ne _ _ _ (fun hc => hp0nw hc.symm), next_setPrev, next_setNext_self]
    have hnext_other : ∀ b, b ≠ ids.getLastD hd → b ≠ nw →
        ((setNext (setPrev (setNext (setPrev h hd (some nw)) nw (some hd)) nw
          (some (ids.getLastD hd))) (ids.getLastD hd) (some nw)) b).next = (h b).next := by
      intro b h1 h2
      rw [next_setNext_ne _ _ _ h1, next_setPrev, next_setNext_ne _ _ _ h2, next_setPrev]
    obtain ⟨I, hI⟩ := @cons_eq_append_last hd ids
    have hndI : (hd :: ids).Nodup := hnd
    have hp0I : ids.getLastD hd ∉ I := by
      rw [hI, List.nodup_append] at hndI
      exact fun hc => hndI.2.2 hc (List.mem_singleton_self _)
    have hnwI : nw ∉ I := by
      intro hc
      apply hnw
      rw [hI]
      exact List.mem_append_left _ hc
    obtain ⟨r2, cI, cp0⟩ := chain_append_split (hI ▸ hfw)
    obtain ⟨hr2, -⟩ := cp0
    subst hr2
    have hlist : hd :: (ids ++ [nw]) = (I ++ [ids.getLastD hd]) ++ [nw] := by
      rw [← hI]
      simp
    rw [hlist]
    refine chain_append_of (r := some nw) ?_ ?_
    · refine chain_append_of (r := some (ids.getLastD hd)) ?_ ?_
      · refine chain_congr (fun b hb => hnext_other b ?_ ?_) cI
        · exact fun hc => hp0I (hc ▸ hb)
        · exact fun hc => hnwI (hc ▸ hb)
      · exact ⟨rfl, hnext_p0⟩
    · exact ⟨rfl, hnext_nw⟩
  · -- backward ring
    have hprev_hd : ((setNext (setPrev (setNext (setPrev h hd (some nw)) nw (some hd)) nw
        (some (ids.getLastD hd))) (ids.getLastD hd) (some nw)) hd).prev = some nw := by
      rw [prev_setNext, prev_setPrev_ne _ _ _ hnwhd.symm, prev_setNext, prev_setPrev_self]
    have hprev_nw : ((setNext (setPrev (setNext (setPrev h hd (some nw)) nw (some hd)) nw
        (some (ids.getLastD hd))) (ids.getLastD hd) (some nw)) nw).prev
        = some (ids.getLastD hd) := by
      rw [prev_setNext, prev_setPrev_self]
    have hprev_other : ∀ b, b ≠ hd → b ≠ nw →
        ((setNext (setPrev (setNext (setPrev h hd (some nw)) nw (some hd)) nw
          (some (ids.getLastD hd))) (ids.getLastD hd) (some nw)) b).prev = (h b).prev := by
      intro b h1 h2
      rw [prev_setNext, prev_setPrev_ne _ _ _ h2, prev_setNext, prev_setPrev_ne _ _ _ h1]
    have hbw2 : chainP h (some (ids.getLastD hd)) ids.reverse (some hd) := by
      have h2 := hbw.2
      rwa [hprev] at h2
    have hbw3 : chainP (setNext (setPrev (setNext (setPrev h hd (some nw)) nw (some hd)) nw
        (some (ids.getLastD hd))) (ids.getLastD hd) (some nw))
        (some (ids.getLastD hd)) ids.reverse (some hd) := by
      refine chainP_congr (fun b hb => hprev_other b ?_ ?_) hbw2
      · rw [List.nodup_cons] at hnd
        exact fun hc => hnd.1 (hc ▸ List.mem_reverse.1 hb)
      · exact fun hc => hnwids (hc ▸ List.mem_reverse.1 hb)
    have hlist : hd :: (ids ++ [nw]).reverse = hd :: nw :: ids.reverse := by
      simp
    rw [hlist]
    exact ⟨rfl, hprev_hd, by rw [hprev_nw]; exact hbw3⟩

/-!
### Invariant preservation for the individual operations
-/

theorem q_insert_head_ptr_ring {h : Heap} {hd nw : Addr} {ids : List Addr} (s : Str)
    (hr : represents h hd ids) (hnw : nw ∉ hd :: ids) :
    ∃ h', q_insert_head_ptr h hd nw s = some h' ∧ represents h' hd (nw :: ids) := by
  have hr0 : represents (writeNode h nw ⟨none, none, s⟩) hd ids := by
    obtain ⟨hnd, hfw, hbw⟩ := hr
    refine ⟨hnd, chain_writeNode_notmem _ hnw hfw, chainP_writeNode_notmem _ ?_ hbw⟩
    intro hc
    rcases List.mem_cons.1 hc with hc | hc
    · exact hnw (hc ▸ List.mem_cons_self hd ids)
    · exact hnw (List.mem_cons_of_mem _ (List.mem_reverse.1 hc))
  obtain ⟨h', hstep, hrep⟩ := list_add_ring hr0 hnw
  exact ⟨h', hstep, hrep⟩

theorem q_insert_tail_ptr_ring {h : Heap} {hd nw : Addr} {ids : List Addr} (s : Str)
    (hr : represents h hd ids) (hnw : nw ∉ hd :: ids) :
    ∃ h', q_insert_tail_ptr h hd nw s = some h' ∧ represents h' hd (ids ++ [nw]) := by
  have hr0 : represents (writeNode h nw ⟨none, none, s⟩) hd ids := by
    obtain ⟨hnd, hfw, hbw⟩ := hr
    refine ⟨hnd, chain_writeNode_notmem _ hnw hfw, chainP_writeNode_notmem _ ?_ hbw⟩
    intro hc
    rcases List.mem_cons.1 hc with hc | hc
    · exact hnw (hc ▸ List.mem_cons_self hd ids)
    · exact hnw (List.mem_cons_of_mem _ (List.mem_reverse.1 hc))
  obtain ⟨h', hstep, hrep⟩ := list_add_tail_ring hr0 hnw
  exact ⟨h', hstep, hrep⟩

theorem ring_empty_next {h : Heap} {hd : Addr} {ids : List Addr}
    (hr : represents h hd ids) (hne : ids ≠ []) : (h hd).next ≠ some hd := by
  obtain ⟨hnd, hfw, -⟩ := hr
  rw [ring_next_eq hfw]
  cases ids with
  | nil => exact absurd rfl hne
  | cons a t =>
    intro hc
    rw [List.nodup_cons] at hnd
    exact hnd.1 ((Option.some_injective _ hc) ▸ List.mem_cons_self a t)

theorem q_remove_head_ptr_empty {h : Heap} {hd : Addr}
    (hr : represents h hd []) : q_remove_head_ptr h hd = some (h, none) := by
  obtain ⟨-, hfw, -⟩ := hr
  rw [q_remove_head_ptr, if_pos (show (h hd).next = some hd from ring_next_eq hfw)]

theorem q_remove_head_ptr_ring {h : Heap} {hd a : Addr} {t : List Addr}
    (hr : represents h hd (a :: t)) :
    ∃ h', q_remove_head_ptr h hd = some (h', some a) ∧ represents h' hd t := by
  have hnext : (h hd).next = some a := ring_next_eq hr.2.1
  obtain ⟨h', hdel, hrep⟩ := list_del_ring (A := []) (B := t) hr
  refine ⟨h', ?_, hrep⟩
  rw [q_remove_head_ptr, if_neg (ring_empty_next hr (by simp))]
  simp [hnext, hdel]

theorem q_remove_tail_ptr_empty {h : Heap} {hd : Addr}
    (hr : represents h hd []) : q_remove_tail_ptr h hd = some (h, none) := by
  obtain ⟨-, hfw, -⟩ := hr
  rw [q_remove_tail_ptr, if_pos (show (h hd).next = some hd from ring_next_eq hfw)]

theorem q_remove_tail_ptr_ring {h : Heap} {hd e : Addr} {A : List Addr}
    (hr : represents h hd (A ++ [e])) :
    ∃ h', q_remove_tail_ptr h hd = some (h', some e) ∧ represents h' hd A := by
  have hprev : (h hd).prev = some e := by
    have := ring_prev_eq hr.2.2
    rwa [List.getLastD_concat] at this
  obtain ⟨h', hdel, hrep⟩ := list_del_ring (A := A) (B := []) hr
  rw [List.append_nil] at hrep
  refine ⟨h', ?_, hrep⟩
  rw [q_remove_tail_ptr, if_neg (ring_empty_next hr (by simp))]
  simp [hprev, hdel]

theorem dm_loop_ok {h : Heap} {hd : Addr} :
    ∀ (fuel : Nat) (F S : List Addr) (sp fp : Ptr),
      F.length < fuel → F.length ≤ S.length → hd ∉ F →
      chain h sp S (some hd) → chain h fp F (some hd) →
      dm_loop h hd fuel sp fp = some (S.getD (fastSteps F) hd) := by
  intro fuel
  induction fuel with
  | zero => intro F S sp fp hfl; omega
  | succ fuel ih =>
    intro F S sp fp hfl hFS hhdF hS hF
    match F, hF with
    | [], hF =>
      rw [chain_nil] at hF
      subst hF
      rw [dm_loop, if_pos rfl]
      cases S with
      | nil => rw [chain_nil] at hS; rw [hS]; rfl
      | cons s t => rw [hS.1]; rfl
    | [f], hF =>
      obtain ⟨hfp, hnx⟩ := hF
      rw [chain_nil] at hnx
      subst hfp
      have hfhd : f ≠ hd := fun hc => hhdF (hc ▸ List.mem_cons_self f [])
      rw [dm_loop, if_neg (by simpa using hfhd)]
      simp only [Option.bind_eq_bind, Option.some_bind]
      rw [hnx, if_pos rfl]
      cases S with
      | nil => simp at hFS
      | cons s t =>
        rw [hS.1]
        rfl
    | f1 :: f2 :: F', hF =>
      obtain ⟨hfp, hnx1, hF'⟩ := hF
      subst hfp
      have hf1hd : f1 ≠ hd := fun hc => hhdF (hc ▸ List.mem_cons_self _ _)
      have hf2hd : f2 ≠ hd := fun hc =>
        hhdF (hc ▸ List.mem_cons_of_mem _ (List.mem_cons_self _ _))
      match S, hS with
      | s1 :: S'', hS =>
        obtain ⟨hsp, hS''⟩ := hS
        subst hsp
        rw [dm_loop, if_neg (by simpa using hf1hd)]
        simp only [Option.bind_eq_bind, Option.some_bind, hnx1]
        rw [if_neg (by simpa using hf2hd)]
        have hrec := ih F' S'' ((h s1).next) ((h f2).next)
          (by simp only [List.length_cons] at hfl; omega)
          (by simp only [List.length_cons] at hFS; omega)
          (fun hc => hhdF (List.mem_cons_of_mem _ (List.mem_cons_of_mem _ hc)))
          hS'' hF'
        rw [hrec]
        rfl

theorem q_delete_mid_ptr_empty {h : Heap} {hd : Addr} (fuel : Nat)
    (hr : represents h hd []) : q_delete_mid_ptr h hd fuel = some (false, h) := by
  obtain ⟨-, hfw, -⟩ := hr
  rw [q_delete_mid_ptr, if_pos (show (h hd).next = some hd from ring_next_eq hfw)]

theorem q_delete_mid_ptr_ring {h : Heap} {hd : Addr} {ids : List Addr} {fuel : Nat}
    (hr : represents h hd ids) (hne : ids ≠ []) (hfl : ids.length < fuel) :
    ∃ h', q_delete_mid_ptr h hd fuel = some (true, h') ∧
      represents h' hd (ids.eraseIdx (ids.length / 2)) := by
  have hloop : dm_loop h hd fuel ((h hd).next) ((h hd).next)
      = some (ids.getD (fastSteps ids) hd) :=
    dm_loop_ok fuel ids ids _ _ hfl le_rfl
      (fun hc => (List.nodup_cons.1 hr.1).1 hc) hr.2.1.2 hr.2.1.2
  have hk : fastSteps ids = ids.length / 2 := fastSteps_eq ids
  have hklt : ids.length / 2 < ids.length := by
    cases ids with
    | nil => exact absurd rfl hne
    | cons a t => simp; omega
  have hsplit : ids = ids.take (ids.length / 2)
      ++ ids.getD (ids.length / 2) hd :: ids.drop (ids.length / 2 + 1) := by
    conv_lhs => rw [← List.take_append_drop (ids.length / 2) ids]
    rw [List.drop_eq_getElem_cons hklt, List.getD_eq_getElem ids hd hklt]
  have hdel := @list_del_ring h hd (ids.getD (ids.length / 2) hd)
    (ids.take (ids.length / 2)) (ids.drop (ids.length / 2 + 1))
    (by rw [← hsplit]; exact hr)
  obtain ⟨h', hdel', hrep⟩ := hdel
  refine ⟨h', ?_, ?_⟩
  · rw [q_delete_mid_ptr, if_neg (ring_empty_next hr hne)]
    rw [hloop, hk]
    simp only [Option.bind_eq_bind, Option.some_bind, hdel']
  · rw [List.eraseIdx_eq_take_drop_succ]
    exact hrep

theorem ring_next_mid {h : Heap} {hd e : Addr} {A B : List Addr}
    (hfw : chain h (some hd) (hd :: A ++ e :: B) (some hd)) :
    (h e).next = some (B.headD hd) := by
  have hfw' : chain h (some hd) ((hd :: A) ++ (e :: B)) (some hd) := hfw
  obtain ⟨r, -, c2⟩ := chain_append_split hfw'
  obtain ⟨hre, c2'⟩ := c2
  cases B with
  | nil => exact c2'
  | cons b t => exact c2'.1

theorem ring_prev_mid {h : Heap} {hd e : Addr} {A B : List Addr}
    (hbw : chainP h (some hd) (hd :: (A ++ e :: B).reverse) (some hd)) :
    (h e).prev = some (A.getLastD hd) := by
  have hrev : (A ++ e :: B).reverse = B.reverse ++ e :: A.reverse := by simp
  rw [hrev] at hbw
  have hbw' : chainP h (some hd) ((hd :: B.reverse) ++ (e :: A.reverse)) (some hd) := hbw
  obtain ⟨r, -, d2⟩ := chainP_append_split hbw'
  obtain ⟨hre, d2'⟩ := d2
  rcases List.eq_nil_or_concat A with rfl | ⟨l, a, rfl⟩
  · exact d2'
  · rw [List.concat_eq_append] at d2' ⊢
    rw [List.reverse_concat] at d2'
    rw [List.getLastD_concat]
    exact d2'.1

theorem size_loop_ok {h : Heap} {hd : Addr} :
    ∀ (fuel : Nat) (S : List Addr) (p : Ptr),
      S.length < fuel → hd ∉ S → chain h p S (some hd) →
      size_loop h hd fuel p = some S.length := by
  intro fuel
  induction fuel with
  | zero => intro S p hfl; omega
  | succ fuel ih =>
    intro S p hfl hhd hS
    cases S with
    | nil =>
      rw [chain_nil] at hS
      subst hS
      rw [size_loop, if_pos rfl]
      rfl
    | cons a t =>
      obtain ⟨hp, ht⟩ := hS
      subst hp
      have hahd : a ≠ hd := fun hc => hhd (hc ▸ List.mem_cons_self a t)
      rw [size_loop, if_neg (by simpa using hahd)]
      simp only [Option.bind_eq_bind, Option.some_bind]
      rw [ih t ((h a).next) (by simp only [List.length_cons] at hfl; omega)
        (fun hc => hhd (List.mem_cons_of_mem _ hc)) ht]
      rfl

theorem q_size_ptr_ring {h : Heap} {hd : Addr} {ids : List Addr} {fuel : Nat}
    (hr : represents h hd ids) (hfl : ids.length < fuel) :
    q_size_ptr h hd fuel = some ids.length := by
  cases ids with
  | nil =>
    rw [q_size_ptr, if_pos (show (h hd).next = some hd from ring_next_eq hr.2.1)]
    rfl
  | cons a t =>
    rw [q_size_ptr, if_neg (ring_empty_next hr (by simp))]
    exact size_loop_ok fuel (a :: t) _ hfl (fun hc => (List.nodup_cons.1 hr.1).1 hc) hr.2.1.2

theorem list_move_ring {h : Heap} {hd e : Addr} {A B : List Addr}
    (hr : represents h hd (A ++ e :: B)) :
    ∃ h', list_move h e hd = some h' ∧ represents h' hd (e :: (A ++ B)) := by
  obtain ⟨h1, hdel, hrep1⟩ := list_del_ring hr
  have hmem : e ∉ hd :: (A ++ B) := by
    have hnd := hr.1
    rw [List.nodup_cons, List.nodup_append, List.nodup_cons] at hnd
    obtain ⟨hhd, hA, ⟨heB, hB⟩, hdis⟩ := hnd
    intro hc
    rcases List.mem_cons.1 hc with hc | hc
    · exact hhd (hc ▸ List.mem_append_right _ (List.mem_cons_self e B))
    · rcases List.mem_append.1 hc with hc | hc
      · exact hdis hc (List.mem_cons_self e B)
      · exact heB hc
  obtain ⟨h2, hadd, hrep2⟩ := list_add_ring hrep1 hmem
  refine ⟨h2, ?_, hrep2⟩
  rw [list_move, hdel]
  simpa using hadd

theorem rev_loop_ok {hd : Addr} :
    ∀ (fuel : Nat) (S Acc : List Addr) (h : Heap) (iter nxt : Ptr),
      S.length < fuel →
      represents h hd (Acc ++ S) →
      (S = [] → iter = some hd) →
      (∀ a S', S = a :: S' → iter = some a ∧ nxt = (h a).next) →
      ∃ h', rev_loop h hd fuel iter nxt = some h' ∧
        represents h' hd (S.reverse ++ Acc) := by
  intro fuel
  induction fuel with
  | zero => intro S Acc h iter nxt hfl; omega
  | succ fuel ih =>
    intro S Acc h iter nxt hfl hr hnil hcons
    cases S with
    | nil =>
      rw [rev_loop, if_pos (hnil rfl)]
      rw [List.append_nil] at hr
      exact ⟨h, rfl, by simpa using hr⟩
    | cons a S' =>
      obtain ⟨hiter, hnxt⟩ := hcons a S' rfl
      subst hiter
      have hahd : a ≠ hd := by
        have hnd := hr.1
        rw [List.nodup_cons] at hnd
        exact fun hc => hnd.1 (hc ▸ List.mem_append_right _ (List.mem_cons_self a S'))
      rw [rev_loop, if_neg (by simpa using hahd)]
      simp only [Option.bind_eq_bind, Option.some_bind]
      obtain ⟨h2, hmove, hrep2⟩ := list_move_ring (A := Acc) (B := S') hr
      rw [hmove]
      simp only [Option.some_bind]
      have hanext : (h a).next = some (S'.headD hd) := ring_next_mid hr.2.1
      rw [hnxt, hanext]
      simp only [Option.some_bind]
      have hrep2' : represents h2 hd ((a :: Acc) ++ S') := by
        simpa using hrep2
      have hrec := ih S' (a :: Acc) h2 (some (S'.headD hd)) ((h2 (S'.headD hd)).next)
        (by simp only [List.length_cons] at hfl; omega) hrep2'
        (by intro hS'; subst hS'; rfl)
        (by
          intro b S'' hS''
          subst hS''
          exact ⟨rfl, rfl⟩)
      obtain ⟨h', hloop, hrep'⟩ := hrec
      refine ⟨h', hloop, ?_⟩
      have hlist : (a :: S').reverse ++ Acc = S'.reverse ++ (a :: Acc) := by
        simp
      rw [hlist]
      exact hrep'

theorem represents_singular {h : Heap} {hd : Addr} {ids : List Addr}
    (hr : represents h hd ids) (hlen : 2 ≤ ids.length) :
    (h hd).next ≠ (h hd).prev := by
  obtain ⟨hnd, hfw, hbw⟩ := hr
  rw [ring_next_eq hfw, ring_prev_eq hbw]
  match ids, hlen with
  | a :: b :: t, _ =>
    intro hc
    have hc' : a = (b :: t).getLastD a := by
      simpa using Option.some_injective _ hc
    rw [List.nodup_cons, List.nodup_cons] at hnd
    have hmem : (b :: t).getLastD a ∈ b :: t := by
      rcases List.eq_nil_or_concat t with rfl | ⟨l, c, rfl⟩
      · exact List.mem_cons_self b []
      · rw [List.concat_eq_append, List.getLastD_cons, List.getLastD_concat]
        exact List.mem_cons_of_mem _ (List.mem_append_right _ (List.mem_singleton_self c))
    exact hnd.2.1 (hc' ▸ hmem)

theorem q_reverse_ptr_ring {h : Heap} {hd : Addr} {ids : List Addr} {fuel : Nat}
    (hr : represents h hd ids) (hfl : ids.length < fuel) :
    ∃ h', q_reverse_ptr h hd fuel = some h' ∧ represents h' hd ids.reverse := by
  match ids, hr, hfl with
  | [], hr, hfl =>
    refine ⟨h, ?_, by simpa using hr⟩
    rw [q_reverse_ptr, if_pos (show (h hd).next = some hd from ring_next_eq hr.2.1)]
  | [x], hr, hfl =>
    refine ⟨h, ?_, by simpa using hr⟩
    rw [q_reverse_ptr]
    rw [if_neg (ring_empty_next hr (by simp))]
    rw [if_pos (by rw [ring_next_eq hr.2.1, ring_prev_eq hr.2.2]; rfl)]
  | x :: y :: t, hr, hfl =>
    have hsing := represents_singular hr (by simp)
    rw [q_reverse_ptr, if_neg (ring_empty_next hr (by simp)), if_neg hsing]
    have hnext : (h hd).next = some x := ring_next_eq hr.2.1
    rw [hnext]
    simp only [Option.bind_eq_bind, Option.some_bind]
    obtain ⟨h', hloop, hrep⟩ := rev_loop_ok fuel (x :: y :: t) [] h (some x) ((h x).next)
      hfl (by simpa using hr) (by intro hc; cases hc) (by
        intro a S' hS'
        injection hS' with h1 h2
        subst h1; subst h2
        exact ⟨rfl, rfl⟩)
    refine ⟨h', hloop, by simpa using hrep⟩

theorem swap_loop_ok {hd : Addr} :
    ∀ (fuel : Nat) (S Acc : List Addr) (h : Heap) (curr : Ptr),
      S.length < fuel →
      represents h hd (Acc ++ S) →
      (S = [] → curr = some hd) →
      (∀ a S', S = a :: S' → curr = some a) →
      ∃ h', swap_loop h hd fuel curr = some h' ∧
        represents h' hd (Acc ++ swapPairs S) := by
  intro fuel
  induction fuel with
  | zero => intro S Acc h curr hfl; omega
  | succ fuel ih =>
    intro S Acc h curr hfl hr hnil hcons
    match S with
    | [] =>
      rw [swap_loop, if_pos (hnil rfl)]
      exact ⟨h, rfl, by simpa [swapPairs] using hr⟩
    | [x] =>
      have hcurr := hcons x [] rfl
      subst hcurr
      have hxhd : x ≠ hd := by
        have hnd := hr.1
        rw [List.nodup_cons] at hnd
        exact fun hc => hnd.1 (hc ▸ List.mem_append_right _ (List.mem_cons_self x []))
      have hxnext : (h x).next = some hd := by
        have := ring_next_mid (A := Acc) (B := ([] : List Addr)) hr.2.1
        simpa using this
      rw [swap_loop, if_neg (by simpa using hxhd)]
      simp only [Option.bind_eq_bind, Option.some_bind]
      rw [hxnext, if_pos rfl]
      exact ⟨h, rfl, by simpa [swapPairs] using hr⟩
    | x :: y :: S'' =>
      have hcurr := hcons x (y :: S'') rfl
      subst hcurr
      -- distinctness bookkeeping
      have hndE := hr.1
      rw [List.nodup_cons, List.nodup_append, List.nodup_cons, List.nodup_cons] at hndE
      obtain ⟨hhd, hAccN, ⟨hxyS, hyS, hS''N⟩, hdis⟩ := hndE
      have hxhd : x ≠ hd := fun hc =>
        hhd (hc ▸ List.mem_append_right _ (List.mem_cons_self _ _))
      have hyhd : y ≠ hd := fun hc =>
        hhd (hc ▸ List.mem_append_right _ (List.mem_cons_of_mem _ (List.mem_cons_self _ _)))
      have hxy : x ≠ y := fun hc => hxyS (hc ▸ List.mem_cons_self _ _)
      have hxS : x ∉ S'' := fun hc => hxyS (List.mem_cons_of_mem _ hc)
      have hxAcc : x ∉ Acc := fun hc => hdis hc (List.mem_cons_self _ _)
      have hyAcc : y ∉ Acc := fun hc =>
        hdis hc (List.mem_cons_of_mem _ (List.mem_cons_self _ _))
      have hhdAcc : hd ∉ Acc := fun hc => hhd (List.mem_append_left _ hc)
      have hhdS : hd ∉ S'' := fun hc =>
        hhd (List.mem_append_right _
          (List.mem_cons_of_mem _ (List.mem_cons_of_mem _ hc)))
      -- neighbours
      have hpAor : Acc.getLastD hd = hd ∨ Acc.getLastD hd ∈ Acc := by
        rcases List.eq_nil_or_concat Acc with rfl | ⟨l, a, rfl⟩
        · exact Or.inl rfl
        · rw [List.concat_eq_append, List.getLastD_concat]
          exact Or.inr (List.mem_append_right _ (List.mem_singleton_self a))
      have hnAor : S''.headD hd = hd ∨ S''.headD hd ∈ S'' := by
        cases S'' with
        | nil => exact Or.inl rfl
        | cons b t => exact Or.inr (List.mem_cons_self b t)
      have hxpA : x ≠ Acc.getLastD hd := by
        rcases hpAor with hc | hc
        · exact fun he => hxhd (he.trans hc)
        · exact fun he => hxAcc (he ▸ hc)
      have hypA : y ≠ Acc.getLastD hd := by
        rcases hpAor with hc | hc
        · exact fun he => hyhd (he.trans hc)
        · exact fun he => hyAcc (he ▸ hc)
      have hxnA : x ≠ S''.headD hd := by
        rcases hnAor with hc | hc
        · exact fun he => hxhd (he.trans hc)
        · exact fun he => hxS (he ▸ hc)
      have hynA : y ≠ S''.headD hd := by
        rcases hnAor with hc | hc
        · exact fun he => hyhd (he.trans hc)
        · exact fun he => hyS (he ▸ hc)
      -- pointer reads
      have hxnext : (h x).next = some y := by
        have := ring_next_mid (A := Acc) (B := y :: S'') hr.2.1
        simpa using this
      have hynext : (h y).next = some (S''.headD hd) := by
        have hlist : Acc ++ x :: y :: S'' = (Acc ++ [x]) ++ y :: S'' := by simp
        have h1 := hr.2.1
        rw [hlist] at h1
        exact ring_next_mid (A := Acc ++ [x]) (B := S'') h1
      have hxprev : (h x).prev = some (Acc.getLastD hd) := by
        exact ring_prev_mid (A := Acc) (B := y :: S'') hr.2.2
      -- one loop iteration
      have hbody : swap_loop h hd (fuel + 1) (some x)
          = swap_loop (setNext (setPrev (setPrev (setNext (setPrev (setNext h x
                (some (S''.headD hd))) y (some (Acc.getLastD hd))) (Acc.getLastD hd)
                (some y)) x (some y)) (S''.headD hd) (some x)) y (some x)) hd fuel
              ((setNext (setPrev (setPrev (setNext (setPrev (setNext h x
                (some (S''.headD hd))) y (some (Acc.getLastD hd))) (Acc.getLastD hd)
                (some y)) x (some y)) (S''.headD hd) (some x)) y (some x)) x).next := by
        rw [swap_loop, if_neg (by simpa using hxhd)]
        simp only [Option.bind_eq_bind, Option.some_bind]
        rw [hxnext, if_neg (by simpa using hyhd)]
        simp only [Option.some_bind, prev_setNext, next_setPrev,
          prev_setPrev_ne _ _ _ hxy, next_setNext_ne _ _ _ hypA,
          next_setNext_ne _ _ _ (fun hc => hxy hc.symm), hxprev, hynext]
      have hreadx : ((setNext (setPrev (setPrev (setNext (setPrev (setNext h x
            (some (S''.headD hd))) y (some (Acc.getLastD hd))) (Acc.getLastD hd)
            (some y)) x (some y)) (S''.headD hd) (some x)) y (some x)) x).next
          = some (S''.headD hd) := by
        rw [next_setNext_ne _ _ _ hxy, next_setPrev, next_setPrev,
          next_setNext_ne _ _ _ hxpA, next_setPrev, next_setNext_self]
      -- field table of the new heap
      have hn_y : ((setNext (setPrev (setPrev (setNext (setPrev (setNext h x
            (some (S''.headD hd))) y (some (Acc.getLastD hd))) (Acc.getLastD hd)
            (some y)) x (some y)) (S''.headD hd) (some x)) y (some x)) y).next
          = some x := next_setNext_self _ _ _
      have hn_pA : ((setNext (setPrev (setPrev (setNext (setPrev (setNext h x
            (some (S''.headD hd))) y (some (Acc.getLastD hd))) (Acc.getLastD hd)
            (some y)) x (some y)) (S''.headD hd) (some x)) y (some x))
            (Acc.getLastD hd)).next = some y := by
        rw [next_setNext_ne _ _ _ (fun hc => hypA hc.symm), next_setPrev, next_setPrev,
          next_setNext_self]
      have hn_o : ∀ b, b ≠ x → b ≠ y → b ≠ Acc.getLastD hd →
          ((setNext (setPrev (setPrev (setNext (setPrev (setNext h x
            (some (S''.headD hd))) y (some (Acc.getLastD hd))) (Acc.getLastD hd)
            (some y)) x (some y)) (S''.headD hd) (some x)) y (some x)) b).next
          = (h b).next := by
        intro b h1 h2 h3
        rw [next_setNext_ne _ _ _ h2, next_setPrev, next_setPrev,
          next_setNext_ne _ _ _ h3, next_setPrev, next_setNext_ne _ _ _ h1]
      have hp_x : ((setNext (setPrev (setPrev (setNext (setPrev (setNext h x
            (some (S''.headD hd))) y (some (Acc.getLastD hd))) (Acc.getLastD hd)
            (some y)) x (some y)) (S''.headD hd) (some x)) y (some x)) x).prev
          = some y := by
        rw [prev_setNext, prev_setPrev_ne _ _ _ hxnA, prev_setPrev_self]
      have hp_nA : ((setNext (setPrev (setPrev (setNext (setPrev (setNext h x
            (some (S''.headD hd))) y (some (Acc.getLastD hd))) (Acc.getLastD hd)
            (some y)) x (some y)) (S''.headD hd) (some x)) y (some x))
            (S''.headD hd)).prev = some x := by
        rw [prev_setNext, prev_setPrev_self]
      have hp_y : ((setNext (setPrev (setPrev (setNext (setPrev (setNext h x
            (some (S''.headD hd))) y (some (Acc.getLastD hd))) (Acc.getLastD hd)
            (some y)) x (some y)) (S''.headD hd) (some x)) y (some x)) y).prev
          = some (Acc.getLastD hd) := by
        rw [prev_setNext, prev_setPrev_ne _ _ _ hynA,
          prev_setPrev_ne _ _ _ (fun hc => hxy hc.symm), prev_setNext,
          prev_setPrev_self]
      have hp_o : ∀ b, b ≠ x → b ≠ y → b ≠ S''.headD hd →
          ((setNext (setPrev (setPrev (setNext (setPrev (setNext h x
            (some (S''.headD hd))) y (some (Acc.getLastD hd))) (Acc.getLastD hd)
            (some y)) x (some y)) (S''.headD hd) (some x)) y (some x)) b).prev
          = (h b).prev := by
        intro b h1 h2 h3
        rw [prev_setNext, prev_setPrev_ne _ _ _ h3, prev_setPrev_ne _ _ _ h1,
          prev_setNext, prev_setPrev_ne _ _ _ h2, prev_setNext]
      -- invariant for the swapped ring
      have hrep6 : represents (setNext (setPrev (setPrev (setNext (setPrev (setNext h x
            (some (S''.headD hd))) y (some (Acc.getLastD hd))) (Acc.getLastD hd)
            (some y)) x (some y)) (S''.headD hd) (some x)) y (some x)) hd
          ((Acc ++ [y, x]) ++ S'') := by
        obtain ⟨hnd, hfw, hbw⟩ := hr
        refine ⟨?_, ?_, ?_⟩
        · have hperm : (hd :: (Acc ++ x :: y :: S'')).Perm
              (hd :: ((Acc ++ [y, x]) ++ S'')) := by
            refine List.Perm.cons hd ?_
            have h1 : (Acc ++ [y, x]) ++ S'' = Acc ++ (y :: x :: S'') := by simp
            rw [h1]
            exact List.Perm.append_left Acc (List.Perm.swap y x S'')
          exact hperm.nodup hnd
        · -- forward ring
          obtain ⟨I, hI⟩ := @cons_eq_append_last hd Acc
          have hxI : x ∉ I := by
            intro hc
            have : x ∈ hd :: Acc := hI ▸ List.mem_append_left _ hc
            rcases List.mem_cons.1 this with hc' | hc'
            · exact hxhd hc'
            · exact hxAcc hc'
          have hyI : y ∉ I := by
            intro hc
            have : y ∈ hd :: Acc := hI ▸ List.mem_append_left _ hc
            rcases List.mem_cons.1 this with hc' | hc'
            · exact hyhd hc'
            · exact hyAcc hc'
          have hpAI : Acc.getLastD hd ∉ I := by
            have hndA : (hd :: Acc).Nodup := by
              refine List.Nodup.sublist ?_ hnd
              exact List.Sublist.cons₂ hd (List.sublist_append_left Acc _)
            rw [hI, List.nodup_append] at hndA
            exact fun hc => hndA.2.2 hc (List.mem_singleton_self _)
          have hfw' : chain h (some hd) ((hd :: Acc) ++ (x :: y :: S'')) (some hd) := hfw
          obtain ⟨r, cA, cS⟩ := chain_append_split hfw'
          obtain ⟨hrx, cS2⟩ := cS
          subst hrx
          have cS'' : chain h (some (S''.headD hd)) S'' (some hd) := by
            have h1 := cS2
            rw [hxnext] at h1
            have h2 := h1.2
            rwa [hynext] at h2
          obtain ⟨r2, cI, cpa⟩ := chain_append_split (hI ▸ cA)
          obtain ⟨hr2, -⟩ := cpa
          subst hr2
          have hlist : hd :: ((Acc ++ [y, x]) ++ S'')
              = (I ++ [Acc.getLastD hd]) ++ (y :: x :: S'') := by
            rw [← hI]
            simp
          rw [hlist]
          refine chain_append_of (r := some y) ?_ ?_
          · refine chain_append_of (r := some (Acc.getLastD hd)) ?_ ?_
            · refine chain_congr (fun b hb => hn_o b ?_ ?_ ?_) cI
              · exact fun hc => hxI (hc ▸ hb)
              · exact fun hc => hyI (hc ▸ hb)
              · exact fun hc => hpAI (hc ▸ hb)
            · exact ⟨rfl, hn_pA⟩
          · refine ⟨rfl, ?_⟩
            rw [hn_y]
            refine ⟨rfl, ?_⟩
            rw [hreadx]
            refine chain_congr (fun b hb => hn_o b ?_ ?_ ?_) cS''
            · exact fun hc => hxS (hc ▸ hb)
            · exact fun hc => hyS (hc ▸ hb)
            · rcases hpAor with hc | hc
              · exact fun he => hhdS ((he.trans hc) ▸ hb)
              · exact fun he => hdis (he ▸ hc)
                  (List.mem_cons_of_mem _ (List.mem_cons_of_mem _ hb))
        · -- backward ring
          obtain ⟨J, hJ⟩ := @cons_reverse_eq_append_head hd S''
          have hxJ : x ∉ J := by
            intro hc
            have : x ∈ hd :: S''.reverse := hJ ▸ List.mem_append_left _ hc
            rcases List.mem_cons.1 this with hc' | hc'
            · exact hxhd hc'
            · exact hxS (List.mem_reverse.1 hc')
          have hyJ : y ∉ J := by
            intro hc
            have : y ∈ hd :: S''.reverse := hJ ▸ List.mem_append_left _ hc
            rcases List.mem_cons.1 this with hc' | hc'
            · exact hyhd hc'
            · exact hyS (List.mem_reverse.1 hc')
          have hnAJ : S''.headD hd ∉ J := by
            have hndS : (hd :: S''.reverse).Nodup := by
              rw [List.nodup_cons, List.nodup_reverse]
              exact ⟨fun hc => hhdS (List.mem_reverse.1 hc), hS''N⟩
            rw [hJ, List.nodup_append] at hndS
            exact fun hc => hndS.2.2 hc (List.mem_singleton_self _)
          have hbw' : chainP h (some hd)
              ((hd :: S''.reverse) ++ (y :: x :: Acc.reverse)) (some hd) := by
            have hlist : hd :: (Acc ++ x :: y :: S'').reverse
                = (hd :: S''.reverse) ++ (y :: x :: Acc.reverse) := by simp
            rw [← hlist]
            exact hbw
          obtain ⟨r, dJa, dRest⟩ := chainP_append_split hbw'
          obtain ⟨hry, dRest2⟩ := dRest
          subst hry
          have dAcc : chainP h (some (Acc.getLastD hd)) Acc.reverse (some hd) := by
            have h1 := dRest2.2
            rwa [hxprev] at h1
          obtain ⟨r2, dJ, dna⟩ := chainP_append_split (hJ ▸ dJa)
          obtain ⟨hr2, -⟩ := dna
          subst hr2
          have hlist : hd :: ((Acc ++ [y, x]) ++ S'').reverse
              = (J ++ [S''.headD hd]) ++ (x :: y :: Acc.reverse) := by
            rw [← hJ]
            simp
          rw [hlist]
          refine chainP_append_of (r := some x) ?_ ?_
          · refine chainP_append_of (r := some (S''.headD hd)) ?_ ?_
            · refine chainP_congr (fun b hb => hp_o b ?_ ?_ ?_) dJ
              · exact fun hc => hxJ (hc ▸ hb)
              · exact fun hc => hyJ (hc ▸ hb)
              · exact fun hc => hnAJ (hc ▸ hb)
            · exact ⟨rfl, hp_nA⟩
          · refine ⟨rfl, ?_⟩
            rw [hp_x]
            refine ⟨rfl, ?_⟩
            rw [hp_y]
            refine chainP_congr (fun b hb => hp_o b ?_ ?_ ?_) dAcc
            · exact fun hc => hxAcc (hc ▸ List.mem_reverse.1 hb)
            · exact fun hc => hyAcc (hc ▸ List.mem_reverse.1 hb)
            · rcases hnAor with hc | hc
              · exact fun he => hhdAcc ((he.trans hc) ▸ List.mem_reverse.1 hb)
              · exact fun he => hdis (he ▸ List.mem_reverse.1 hb)
                  (List.mem_cons_of_mem _ (List.mem_cons_of_mem _ hc))
      -- recurse
      have hrec := ih S'' (Acc ++ [y, x]) _ (some (S''.headD hd))
        (by simp only [List.length_cons] at hfl; omega) hrep6
        (by intro hS'; subst hS'; rfl)
        (by intro b S3 hS3; subst hS3; rfl)
      obtain ⟨h', hloop, hrep'⟩ := hrec
      refine ⟨h', ?_, ?_⟩
      · rw [hbody, hreadx]
        exact hloop
      · have hlist : Acc ++ swapPairs (x :: y :: S'') = (Acc ++ [y, x]) ++ swapPairs S'' := by
          rw [swapPairs]
          simp
        rw [hlist]
        exact hrep'

theorem q_swap_ptr_ring {h : Heap} {hd : Addr} {ids : List Addr} {fuel : Nat}
    (hr : represents h hd ids) (hfl : ids.length < fuel) :
    ∃ h', q_swap_ptr h hd fuel = some h' ∧ represents h' hd (swapPairs ids) := by
  match ids, hr, hfl with
  | [], hr, hfl =>
    refine ⟨h, ?_, by simpa [swapPairs] using hr⟩
    rw [q_swap_ptr, if_pos (show (h hd).next = some hd from ring_next_eq hr.2.1)]
  | [x], hr, hfl =>
    refine ⟨h, ?_, by simpa [swapPairs] using hr⟩
    rw [q_swap_ptr]
    rw [if_neg (ring_empty_next hr (by simp))]
    rw [if_pos (by rw [ring_next_eq hr.2.1, ring_prev_eq hr.2.2]; rfl)]
  | x :: y :: t, hr, hfl =>
    have hsing := represents_singular hr (by simp)
    rw [q_swap_ptr, if_neg (ring_empty_next hr (by simp)), if_neg hsing]
    have hnext : (h hd).next = some x := ring_next_eq hr.2.1
    rw [hnext]
    obtain ⟨h', hloop, hrep⟩ := swap_loop_ok fuel (x :: y :: t) [] h (some x)
      hfl (by simpa using hr) (by intro hc; cases hc)
      (by
        intro a S' hS'
        injection hS' with h1 h2
        subst h1
        rfl)
    exact ⟨h', hloop, by simpa using hrep⟩

theorem setNext_setPrev_comm (h : Heap) (a b : Addr) (x y : Ptr) :
    setPrev (setNext h a x) b y = setNext (setPrev h b y) a x := by
  funext c
  unfold setNext setPrev
  by_cases hca : c = a <;> by_cases hcb : c = b <;>
    simp [hca, hcb] <;> simp_all

theorem run_split {α : Type} (key : α → Str) (v : Str) :
    ∀ l : List α, ∃ T Rest, l = T ++ Rest ∧
      (∀ a ∈ T, strcmp v (key a) = 0) ∧
      (∀ b R', Rest = b :: R' → strcmp v (key b) ≠ 0) ∧
      dropRunK key v l = Rest := by
  intro l
  induction l with
  | nil =>
    refine ⟨[], [], by simp, by simp, ?_, by simp [dropRunK]⟩
    intro b R' hc
    cases hc
  | cons y t ih =>
    by_cases hy : strcmp v (key y) = 0
    · obtain ⟨T, Rest, hl, hT, hRest, hdr⟩ := ih
      refine ⟨y :: T, Rest, by simp [hl], ?_, hRest, ?_⟩
      · intro a ha
        rcases List.mem_cons.1 ha with rfl | ha
        · exact hy
        · exact hT a ha
      · rw [dropRunK, if_pos hy, hdr]
    · exact ⟨[], y :: t, by simp, by simp, by
        intro b R' hc
        injection hc with h1 h2
        subst h1
        exact hy, by rw [dropRunK, if_neg hy]⟩

theorem dropRunK_congr {α : Type} {k k' : α → Str} (hk : ∀ a, k a = k' a) (v : Str) :
    ∀ l : List α, dropRunK k v l = dropRunK k' v l := by
  intro l
  induction l with
  | nil => rfl
  | cons y t ih =>
    rw [dropRunK, dropRunK, hk y, ih]

theorem delDupGo_congr {α : Type} {k k' : α → Str} (hk : ∀ a, k a = k' a) :
    ∀ l : List α, delDupGo k l = delDupGo k' l := by
  intro l
  induction l using delDupGo.induct k with
  | case1 => simp [delDupGo]
  | case2 x => simp [delDupGo]
  | case3 x y t heq ih =>
    have h1 : delDupGo k (x :: y :: t) = delDupGo k (dropRunK k (k x) (y :: t)) := by
      rw [delDupGo_eq3, if_pos heq]
    have h2 : delDupGo k' (x :: y :: t) = delDupGo k' (dropRunK k' (k' x) (y :: t)) := by
      rw [delDupGo_eq3, if_pos (by rw [← hk x, ← hk y]; exact heq)]
    rw [h1, h2, ih, dropRunK_congr hk, hk x]
  | case4 x y t hne ih =>
    have h1 : delDupGo k (x :: y :: t) = x :: delDupGo k (y :: t) := by
      rw [delDupGo_eq3, if_neg hne]
    have h2 : delDupGo k' (x :: y :: t) = x :: delDupGo k' (y :: t) := by
      rw [delDupGo_eq3, if_neg (by rw [← hk x, ← hk y]; exact hne)]
    rw [h1, h2, ih]

theorem dup_inner_ok {hd c : Addr} :
    ∀ (fuel : Nat) (T Rest Acc : List Addr) (h : Heap),
      T.length < fuel →
      represents h hd (Acc ++ c :: (T ++ Rest)) →
      (∀ a ∈ T, strcmp (h c).value (h a).value = 0) →
      (∀ b R', Rest = b :: R' → strcmp (h c).value (h b).value ≠ 0) →
      ∃ h', dup_inner h hd c fuel ((h c).next) = some (h', some (Rest.headD hd)) ∧
        represents h' hd (Acc ++ c :: Rest) ∧
        (∀ a, (h' a).value = (h a).value) := by
  intro fuel
  induction fuel with
  | zero => intro T Rest Acc h hfl; omega
  | succ fuel ih =>
    intro T Rest Acc h hfl hr hT hRest
    have hcnext : (h c).next = some ((T ++ Rest).headD hd) :=
      ring_next_mid (A := Acc) (B := T ++ Rest) hr.2.1
    match T with
    | [] =>
      rw [List.nil_append] at hcnext
      cases Rest with
      | nil =>
        have hx : (h c).next = some hd := hcnext
        rw [hx, dup_inner, if_pos (show (some hd : Ptr) = some hd from rfl)]
        exact ⟨h, rfl, by simpa using hr, fun a => rfl⟩
      | cons b R' =>
        have hx : (h c).next = some b := hcnext
        have hbhd : b ≠ hd := by
          have hnd := hr.1
          rw [List.nodup_cons] at hnd
          exact fun hc' => hnd.1 (hc' ▸ List.mem_append_right _
            (List.mem_cons_of_mem _ (List.mem_cons_self _ _)))
        rw [hx, dup_inner, if_neg (by simpa using hbhd)]
        simp only [Option.bind_eq_bind, Option.some_bind]
        rw [if_neg (hRest b R' rfl)]
        exact ⟨h, rfl, by simpa using hr, fun a => rfl⟩
    | t :: T' =>
      have hthd : t ≠ hd := by
        have hnd := hr.1
        rw [List.nodup_cons] at hnd
        exact fun hc' => hnd.1 (hc' ▸ List.mem_append_right _
          (List.mem_cons_of_mem _ (List.mem_append_left _ (List.mem_cons_self _ _))))
      have htc : t ≠ c := by
        have hnd := hr.1
        rw [List.nodup_cons, List.nodup_append, List.nodup_cons] at hnd
        exact fun hc' => hnd.2.2.1.1 (hc' ▸ List.mem_append_left _ (List.mem_cons_self _ _))
      have hlist : Acc ++ c :: ((t :: T') ++ Rest)
          = (Acc ++ [c]) ++ t :: (T' ++ Rest) := by simp
      have htnext : (h t).next = some ((T' ++ Rest).headD hd) := by
        have h1 := hr.2.1
        rw [hlist] at h1
        exact ring_next_mid (A := Acc ++ [c]) (B := T' ++ Rest) h1
      have htprev : (h t).prev = some c := by
        have h1 := hr.2.2
        rw [hlist] at h1
        have := ring_prev_mid (A := Acc ++ [c]) (B := T' ++ Rest) h1
        rwa [List.getLastD_concat] at this
      -- the two writes of the loop body equal `list_del h t`
      obtain ⟨hdl, hdel, hrepdel⟩ := list_del_ring
        (A := Acc ++ [c]) (B := T' ++ Rest) (by rw [← hlist]; exact hr)
      have hcompute : list_del h t
          = some (setNext (setPrev h ((T' ++ Rest).headD hd) (some c)) c
              (some ((T' ++ Rest).headD hd))) := by
        rw [list_del, htnext, htprev]
        simp [List.getLastD_concat]
      have hdlval : hdl = setNext (setPrev h ((T' ++ Rest).headD hd) (some c)) c
          (some ((T' ++ Rest).headD hd)) := by
        rw [hdel] at hcompute
        exact Option.some_injective _ hcompute
      subst hdlval
      -- run the body
      have hx : (h c).next = some t := hcnext
      rw [hx]
      rw [dup_inner, if_neg (by simpa using hthd)]
      simp only [Option.bind_eq_bind, Option.some_bind]
      rw [if_pos (hT t (List.mem_cons_self _ _))]
      rw [htnext]
      simp only [next_setNext_ne _ _ _ htc, htnext, Option.some_bind]
      -- the heap after the body, rewritten to the `list_del` form
      rw [setNext_setPrev_comm]
      -- the pointer the loop continues from
      have hc2next : ((setNext (setPrev h ((T' ++ Rest).headD hd) (some c)) c
          (some ((T' ++ Rest).headD hd))) c).next = some ((T' ++ Rest).headD hd) :=
        next_setNext_self _ _ _
      have hvals : ∀ a, ((setNext (setPrev h ((T' ++ Rest).headD hd) (some c)) c
          (some ((T' ++ Rest).headD hd))) a).value = (h a).value := by
        intro a
        rw [value_setNext, value_setPrev]
      have hrep2 : represents (setNext (setPrev h ((T' ++ Rest).headD hd) (some c)) c
          (some ((T' ++ Rest).headD hd))) hd (Acc ++ c :: (T' ++ Rest)) := by
        have hlist2 : (Acc ++ [c]) ++ (T' ++ Rest) = Acc ++ c :: (T' ++ Rest) := by simp
        rw [← hlist2]
        exact hrepdel
      have hrec := ih T' Rest Acc _
        (by simp only [List.length_cons] at hfl; omega) hrep2
        (by
          intro a ha
          rw [hvals c, hvals a]
          exact hT a (List.mem_cons_of_mem _ ha))
        (by
          intro b R' hb
          rw [hvals c, hvals b]
          exact hRest b R' hb)
      obtain ⟨h', hstep, hrep', hvals'⟩ := hrec
      refine ⟨h', hstep, hrep', fun a => (hvals' a).trans (hvals a)⟩

theorem dup_outer_ok {hd : Addr} :
    ∀ (fuel : Nat) (S Acc : List Addr) (h : Heap) (curr : Ptr),
      S.length < fuel →
      represents h hd (Acc ++ S) →
      (S = [] → curr = some hd) →
      (∀ a S', S = a :: S' → curr = some a) →
      ∃ h', dup_outer h hd fuel curr = some h' ∧
        represents h' hd (Acc ++ delDupGo (fun a => (h a).value) S) ∧
        (∀ a, (h' a).value = (h a).value) := by
  intro fuel
  induction fuel with
  | zero => intro S Acc h curr hfl; omega
  | succ fuel ih =>
    intro S Acc h curr hfl hr hnil hcons
    match S with
    | [] =>
      rw [dup_outer, if_pos (hnil rfl)]
      exact ⟨h, rfl, by simpa [delDupGo] using hr, fun a => rfl⟩
    | [x] =>
      have hcurr := hcons x [] rfl
      subst hcurr
      have hxhd : x ≠ hd := by
        have hnd := hr.1
        rw [List.nodup_cons] at hnd
        exact fun hc => hnd.1 (hc ▸ List.mem_append_right _ (List.mem_cons_self x []))
      have hxnext : (h x).next = some hd := by
        have := ring_next_mid (A := Acc) (B := ([] : List Addr)) hr.2.1
        simpa using this
      rw [dup_outer, if_neg (by simpa using hxhd)]
      simp only [Option.bind_eq_bind, Option.some_bind]
      rw [hxnext, if_pos rfl]
      exact ⟨h, rfl, by simpa [delDupGo] using hr, fun a => rfl⟩
    | x :: y :: S2 =>
      have hcurr := hcons x (y :: S2) rfl
      subst hcurr
      have hndE := hr.1
      rw [List.nodup_cons] at hndE
      obtain ⟨hhd, -⟩ := hndE
      have hxhd : x ≠ hd := fun hc =>
        hhd (hc ▸ List.mem_append_right _ (List.mem_cons_self _ _))
      have hyhd : y ≠ hd := fun hc =>
        hhd (hc ▸ List.mem_append_right _ (List.mem_cons_of_mem _ (List.mem_cons_self _ _)))
      have hxnext : (h x).next = some y := by
        have := ring_next_mid (A := Acc) (B := y :: S2) hr.2.1
        simpa using this
      rw [dup_outer, if_neg (by simpa using hxhd)]
      simp only [Option.bind_eq_bind, Option.some_bind]
      rw [hxnext, if_neg (by simpa using hyhd)]
      simp only [Option.some_bind]
      by_cases heq : strcmp (h x).value (h y).value = 0
      · rw [if_pos heq]
        -- split off the equal run
        obtain ⟨T, Rest, hTR, hT, hRest, hdrop⟩ :=
          run_split (fun a => (h a).value) ((h x).value) (y :: S2)
        have hrTR : represents h hd (Acc ++ x :: (T ++ Rest)) := by
          rw [← hTR]
          exact hr
        obtain ⟨h1, hstep1, hrep1, hvals1⟩ := dup_inner_ok fuel T Rest Acc h
          (by
            have : T.length ≤ (y :: S2).length := by
              rw [hTR]
              simp
            simp only [List.length_cons] at hfl this ⊢
            omega)
          hrTR hT hRest
        rw [hxnext] at hstep1
        rw [hstep1]
        simp only [Option.some_bind]
        -- unlink x itself
        have hxprev1 : (h1 x).prev = some (Acc.getLastD hd) :=
          ring_prev_mid (A := Acc) (B := Rest) hrep1.2.2
        have hx1next : (h1 x).next = some (Rest.headD hd) :=
          ring_next_mid (A := Acc) (B := Rest) hrep1.2.1
        obtain ⟨hdl, hdel, hrepdel⟩ := list_del_ring (A := Acc) (B := Rest) hrep1
        have hcompute : list_del h1 x
            = some (setNext (setPrev h1 (Rest.headD hd) (some (Acc.getLastD hd)))
                (Acc.getLastD hd) (some (Rest.headD hd))) := by
          rw [list_del, hx1next, hxprev1]
          rfl
        have hdlval : hdl = setNext (setPrev h1 (Rest.headD hd) (some (Acc.getLastD hd)))
            (Acc.getLastD hd) (some (Rest.headD hd)) := by
          rw [hdel] at hcompute
          exact Option.some_injective _ hcompute
        subst hdlval
        rw [hxprev1]
        simp only [Option.some_bind, prev_setNext, hxprev1]
        rw [setNext_setPrev_comm]
        have hvals3 : ∀ a, ((setNext (setPrev h1 (Rest.headD hd) (some (Acc.getLastD hd)))
            (Acc.getLastD hd) (some (Rest.headD hd))) a).value = (h a).value := by
          intro a
          rw [value_setNext, value_setPrev, hvals1]
        have hrec := ih Rest Acc _ (some (Rest.headD hd))
          (by
            have : Rest.length ≤ (y :: S2).length := by
              rw [hTR]
              simp
            simp only [List.length_cons] at hfl this ⊢
            omega)
          hrepdel
          (by intro hR; subst hR; rfl)
          (by intro b R' hb; subst hb; rfl)
        obtain ⟨h', hstep', hrep', hvals'⟩ := hrec
        refine ⟨h', hstep', ?_, fun a => (hvals' a).trans (hvals3 a)⟩
        have hkey : delDupGo (fun a => ((setNext (setPrev h1 (Rest.headD hd)
            (some (Acc.getLastD hd))) (Acc.getLastD hd) (some (Rest.headD hd))) a).value) Rest
            = delDupGo (fun a => (h a).value) Rest :=
          delDupGo_congr hvals3 Rest
        rw [hkey] at hrep'
        have hgo : delDupGo (fun a => (h a).value) (x :: y :: S2)
            = delDupGo (fun a => (h a).value) Rest := by
          rw [delDupGo_eq3, if_pos heq, hdrop]
        rw [hgo]
        exact hrep'
      · rw [if_neg heq]
        have hrec := ih (y :: S2) (Acc ++ [x]) h (some y)
          (by simp only [List.length_cons] at hfl ⊢; omega)
          (by
            have hlist : (Acc ++ [x]) ++ (y :: S2) = Acc ++ x :: y :: S2 := by simp
            rw [hlist]
            exact hr)
          (by intro hc; cases hc)
          (by
            intro a S' hS'
            injection hS' with h1 h2
            subst h1
            rfl)
        obtain ⟨h', hstep', hrep', hvals'⟩ := hrec
        refine ⟨h', hstep', ?_, hvals'⟩
        have hgo : delDupGo (fun a => (h a).value) (x :: y :: S2)
            = x :: delDupGo (fun a => (h a).value) (y :: S2) := by
          rw [delDupGo_eq3, if_neg heq]
        rw [hgo]
        have hlist : Acc ++ x :: delDupGo (fun a => (h a).value) (y :: S2)
            = (Acc ++ [x]) ++ delDupGo (fun a => (h a).value) (y :: S2) := by simp
        rw [hlist]
        exact hrep'

theorem q_delete_dup_ptr_ring {h : Heap} {hd : Addr} {ids : List Addr} {fuel : Nat}
    (hr : represents h hd ids) (hfl : ids.length < fuel) :
    ∃ h', q_delete_dup_ptr h hd fuel = some h' ∧
      represents h' hd (delDupGo (fun a => (h a).value) ids) := by
  obtain ⟨h', hstep, hrep, -⟩ := dup_outer_ok fuel ids [] h ((h hd).next) hfl
    (by simpa using hr)
    (by
      intro hids
      subst hids
      exact ring_next_eq hr.2.1)
    (by
      intro a S' hS'
      subst hS'
      exact ring_next_eq hr.2.1)
  exact ⟨h', hstep, by simpa using hrep⟩

/-!
### The sorting loops at pointer level

`merge` (lines 304-326) writes the `prev` field of every node it emits:
the first emitted node gets the caller's running `prev`, every later one
points back at the node emitted just before it, and the head of the
spliced remainder gets the last emitted node.  `prevLinked` captures the
interior part of that state — every element after the first points back to
its predecessor — while the head's own `prev` is tracked separately. -/
def prevLinked (h : Heap) : List Addr → Prop
  | [] => True
  | [_] => True
  | a :: b :: l => (h b).prev = some a ∧ prevLinked h (b :: l)

theorem prevLinked_congr {h h' : Heap} :
    ∀ (l : List Addr), (∀ b ∈ l.tail, (h' b).prev = (h b).prev) →
      prevLinked h l → prevLinked h' l
  | [], _, _ => trivial
  | [_], _, _ => trivial
  | _ :: b :: l, hm, hp =>
    ⟨(hm b (List.mem_cons_self _ _)).trans hp.1,
     prevLinked_congr (b :: l) (fun c hc => hm c (List.mem_cons_of_mem _ hc)) hp.2⟩

theorem getLastD_mem : ∀ (l : List Addr) (d : Addr), l ≠ [] → l.getLastD d ∈ l
  | [], _, hne => absurd rfl hne
  | [a], d, _ => by simp
  | a :: b :: l, d, _ => by
    rw [List.getLastD_cons]
    exact List.mem_cons_of_mem _ (getLastD_mem (b :: l) a (by simp))

/-- Overwriting the `next` of the last element of a NULL-free chain retargets
the chain's final pointer and nothing else. -/
theorem chain_setNext_last {h : Heap} {d : Addr} {r : Ptr} :
    ∀ (l : List Addr) (p q : Ptr), l ≠ [] → l.Nodup → chain h p l q →
      chain (setNext h (l.getLastD d) r) p l r
  | [], _, _, hne, _, _ => absurd rfl hne
  | [a], p, q, _, _, hc => by
    have ha : [a].getLastD d = a := by simp
    rw [ha]
    exact ⟨hc.1, next_setNext_self h a r⟩
  | a :: b :: l, p, q, _, hnd, hc => by
    rw [List.getLastD_cons]
    have hmem : (b :: l).getLastD a ∈ b :: l := getLastD_mem (b :: l) a (by simp)
    have hne : a ≠ (b :: l).getLastD a := by
      rw [List.nodup_cons] at hnd
      exact fun he => hnd.1 (he ▸ hmem)
    refine ⟨hc.1, ?_⟩
    rw [next_setNext_ne _ _ _ hne]
    exact chain_setNext_last (b :: l) ((h a).next) q (by simp) (List.nodup_cons.mp hnd).2 hc.2

/-- The tail walk of `q_sort` (lines 358-360) ends at the last element of
the NULL-terminated chain. -/
theorem sort_tail_walk_ok {h : Heap} :
    ∀ (l : List Addr) (fuel : Nat) (s : Addr) (d : Addr), l.length ≤ fuel →
      chain h (some s) l none →
      sort_tail_walk h fuel s = some (l.getLastD d)
  | [], _, _, _, _, hc => absurd hc (by simp [chain])
  | a :: l, 0, s, d, hfl, _ => absurd hfl (by simp)
  | [a], fuel + 1, s, d, _, hc => by
    obtain ⟨hs, hn⟩ := hc
    have hs' : s = a := Option.some_injective _ hs
    subst hs'
    have hn' : (h s).next = none := hn
    rw [sort_tail_walk, hn']
    simp
  | a :: b :: l, fuel + 1, s, d, hfl, hc => by
    obtain ⟨hs, hc'⟩ := hc
    have hs' : s = a := Option.some_injective _ hs
    subst hs'
    have hb : (h s).next = some b := hc'.1
    rw [sort_tail_walk, hb, List.getLastD_cons]
    exact sort_tail_walk_ok (b :: l) fuel b s (by simp at hfl ⊢; omega) ⟨rfl, hc'.2⟩

/-- A chain whose interior `prev` links are in place and whose head's `prev`
is `p` is a `prev` chain from its last element back through `p`. -/
theorem chainP_of_prevLinked {h : Heap} :
    ∀ (l : List Addr) (d : Addr) (p : Ptr), l ≠ [] → prevLinked h l →
      (h (l.headD d)).prev = p →
      chainP h (some (l.getLastD d)) l.reverse p
  | [], _, _, hne, _, _ => absurd rfl hne
  | [a], d, p, _, _, hp => by
    have ha : [a].getLastD d = a := by simp
    rw [ha]
    exact ⟨rfl, hp⟩
  | a :: b :: l, d, p, _, hpl, hp => by
    have hrec := chainP_of_prevLinked (b :: l) a (some a) (by simp) hpl.2 hpl.1
    rw [List.reverse_cons, List.getLastD_cons]
    exact chainP_append_of hrec ⟨rfl, hp⟩

/-- The slow/fast loop of `mergesort` (lines 334-338): after the fast
pointer has run down the chain `fs`, `mid` has advanced `fastSteps fs`
places down its own chain. -/
theorem ms_split_ok {h : Heap} :
    ∀ (fs : List Addr) (fuel : Nat) (m : Addr) (ms : List Addr) (fast : Ptr),
      fastSteps fs < fuel →
      chain h fast fs none →
      chain h (some m) (m :: ms) none →
      ms_split h fuel m fast = (m :: ms)[fastSteps fs]? := by
  intro fs
  induction fs using fastSteps.induct with
  | case1 =>
    intro fuel m ms fast hfl hcf hcm
    match fuel, hfl with
    | fuel + 1, _ =>
      have hf : fast = none := hcf
      subst hf
      simp [ms_split, fastSteps]
  | case2 fa =>
    intro fuel m ms fast hfl hcf hcm
    match fuel, hfl with
    | fuel + 1, _ =>
      obtain ⟨hf, hn⟩ := hcf
      subst hf
      have hn' : (h fa).next = none := hn
      simp [ms_split, hn', fastSteps]
  | case3 fa fb fs ih =>
    intro fuel m ms fast hfl hcf hcm
    match fuel, hfl with
    | fuel + 1, hfl =>
      obtain ⟨hf, hfb, hcf'⟩ := hcf
      subst hf
      have hfb' : (h fa).next = some fb := hfb
      have hcm' := hcm.2
      have hfs : fastSteps (fa :: fb :: fs) = fastSteps fs + 1 := rfl
      match ms, hcm' with
      | [], hcm' =>
        have hmn : (h m).next = none := hcm'
        rw [hfs]
        simp [ms_split, hfb', hmn]
      | m1 :: ms', hcm' =>
        have hm1 : (h m).next = some m1 := hcm'.1
        have hrec := ih fuel m1 ms' ((h fb).next)
          (by simp only [fastSteps] at hfl; omega)
          hcf' ⟨rfl, hcm'.2⟩
        simp only [ms_split, hfb', hm1, Option.bind_eq_bind, Option.some_bind]
        rw [hrec, hfs, List.getElem?_cons_succ]

theorem setNext_ne (h : Heap) (a : Addr) (p : Ptr) {b : Addr} (hb : b ≠ a) :
    setNext h a p b = h b := by
  simp [setNext, hb]

theorem setPrev_ne (h : Heap) (a : Addr) (p : Ptr) {b : Addr} (hb : b ≠ a) :
    setPrev h a p b = h b := by
  simp [setPrev, hb]

/-- `merge` (lines 304-326) at pointer level computes the value-level
`merge`: on NULL-terminated chains over disjoint addresses it returns the
head of the merged chain, links it forward exactly along the value-level
merge, backward-links every emitted element, hands the running `prev` to
the first element, and touches no node outside the two inputs. -/
theorem merge_ptr_ok :
    ∀ (fuel : Nat) (lids rids : List Addr) (h : Heap) (lp rp prevp : Ptr),
      lids.length + rids.length < fuel →
      lids ++ rids ≠ [] →
      (lids ++ rids).Nodup →
      chain h lp lids none →
      chain h rp rids none →
      prevLinked h lids →
      prevLinked h rids →
      ∃ h', merge_ptr fuel h lp rp prevp
          = some (h', (merge (fun a => (h a).value) lids rids).headD 0) ∧
        chain h' (some ((merge (fun a => (h a).value) lids rids).headD 0))
          (merge (fun a => (h a).value) lids rids) none ∧
        prevLinked h' (merge (fun a => (h a).value) lids rids) ∧
        (h' ((merge (fun a => (h a).value) lids rids).headD 0)).prev = prevp ∧
        (∀ a, (h' a).value = (h a).value) ∧
        (∀ a, a ∉ lids → a ∉ rids → h' a = h a) := by
  intro fuel
  induction fuel with
  | zero =>
    intro lids rids h lp rp prevp hfl
    omega
  | succ fuel ih =>
    intro lids rids h lp rp prevp hfl hne hnd hcl hcr hpl hpr
    cases lids with
    | nil =>
      cases rids with
      | nil => exact absurd rfl hne
      | cons ra rs =>
        have hlp : lp = none := hcl
        subst hlp
        obtain ⟨hrp, hcr'⟩ := hcr
        subst hrp
        rw [List.nil_append] at hnd
        have hra_rs : ra ∉ rs := (List.nodup_cons.mp hnd).1
        have hMeq : merge (fun a => (h a).value) [] (ra :: rs) = ra :: rs := by
          rw [merge]
        rw [hMeq]
        simp only [List.headD_cons]
        refine ⟨setPrev h ra prevp, ?_, ?_, ?_, ?_, ?_, ?_⟩
        · rfl
        · exact chain_congr (fun a _ => next_setPrev _ _ _ _) ⟨rfl, hcr'⟩
        · exact prevLinked_congr (ra :: rs)
            (fun b hb => prev_setPrev_ne _ _ _ (fun he => hra_rs (he ▸ hb))) hpr
        · exact prev_setPrev_self _ _ _
        · exact fun a => value_setPrev _ _ _ _
        · intro a _ har
          exact setPrev_ne _ _ _ (fun he => har (he ▸ List.mem_cons_self _ _))
    | cons la ls =>
      cases rids with
      | nil =>
        obtain ⟨hlp, hcl'⟩ := hcl
        subst hlp
        have hrp : rp = none := hcr
        subst hrp
        rw [List.append_nil] at hnd
        have hla_ls : la ∉ ls := (List.nodup_cons.mp hnd).1
        have hMeq : merge (fun a => (h a).value) (la :: ls) [] = la :: ls := by
          rw [merge]
          simp
        rw [hMeq]
        simp only [List.headD_cons]
        refine ⟨setPrev h la prevp, ?_, ?_, ?_, ?_, ?_, ?_⟩
        · rfl
        · exact chain_congr (fun a _ => next_setPrev _ _ _ _) ⟨rfl, hcl'⟩
        · exact prevLinked_congr (la :: ls)
            (fun b hb => prev_setPrev_ne _ _ _ (fun he => hla_ls (he ▸ hb))) hpl
        · exact prev_setPrev_self _ _ _
        · exact fun a => value_setPrev _ _ _ _
        · intro a hal _
          exact setPrev_ne _ _ _ (fun he => hal (he ▸ List.mem_cons_self _ _))
      | cons ra rs =>
        obtain ⟨hlp, hcl'⟩ := hcl
        obtain ⟨hrp, hcr'⟩ := hcr
        subst hlp hrp
        rw [List.nodup_append] at hnd
        obtain ⟨hndl, hndr, hdisj⟩ := hnd
        have hla_ls : la ∉ ls := (List.nodup_cons.mp hndl).1
        have hra_rs : ra ∉ rs := (List.nodup_cons.mp hndr).1
        have hla_r : la ∉ ra :: rs := fun hm => hdisj (List.mem_cons_self _ _) hm
        have hra_l : ra ∉ la :: ls := fun hm => hdisj hm (List.mem_cons_self _ _)
        have hpls : prevLinked h ls := by
          match ls, hpl with
          | [], _ => trivial
          | x :: ls', hpl => exact hpl.2
        have hprs : prevLinked h rs := by
          match rs, hpr with
          | [], _ => trivial
          | x :: rs', hpr => exact hpr.2
        by_cases hlt : strcmp (h la).value (h ra).value < 0
        · -- the left head is strictly smaller: it is emitted first
          have hih := ih ls (ra :: rs) (setPrev h la prevp)
            (((setPrev h la prevp) la).next) (some ra) (some la)
            (by simp only [List.length_cons] at hfl ⊢; omega)
            (by simp)
            (by
              rw [List.nodup_append]
              exact ⟨(List.nodup_cons.mp hndl).2, hndr,
                fun a ha => hdisj (List.mem_cons_of_mem _ ha)⟩)
            (by
              rw [next_setPrev]
              exact chain_congr (fun a _ => next_setPrev _ _ _ _) hcl')
            (chain_congr (fun a _ => next_setPrev _ _ _ _) ⟨rfl, hcr'⟩)
            (prevLinked_congr ls
              (fun b hb => prev_setPrev_ne _ _ _
                (fun he => hla_ls (he ▸ List.mem_of_mem_tail hb)))
              hpls)
            (prevLinked_congr (ra :: rs)
              (fun b hb => prev_setPrev_ne _ _ _
                (fun he => hla_r (he ▸ List.mem_cons_of_mem _ hb)))
              hpr)
          obtain ⟨h2, hstep2, hchain2, hplM2, hprev2, hvals2, hframe2⟩ := hih
          have hval1 : (fun a => ((setPrev h la prevp) a).value)
              = (fun a => (h a).value) := funext fun a => value_setPrev _ _ _ _
          rw [hval1] at hstep2 hchain2 hplM2 hprev2
          have hMeq : merge (fun a => (h a).value) (la :: ls) (ra :: rs)
              = la :: merge (fun a => (h a).value) ls (ra :: rs) := by
            rw [merge, if_pos hlt]
          have hlenM := (merge_perm (fun a => (h a).value) ls (ra :: rs)).length_eq
          have hM'ne : merge (fun a => (h a).value) ls (ra :: rs) ≠ [] := by
            intro h0
            rw [h0] at hlenM
            simp only [List.length_nil, List.length_cons, List.length_append] at hlenM
            omega
          have hlaM' : la ∉ merge (fun a => (h a).value) ls (ra :: rs) := by
            intro hm
            have := (merge_perm (fun a => (h a).value) ls (ra :: rs)).mem_iff.mp hm
            rw [List.mem_append] at this
            rcases this with hm1 | hm2
            · exact hla_ls hm1
            · exact hla_r hm2
          rw [hMeq]
          simp only [List.headD_cons]
          refine ⟨setNext h2 la (some ((merge (fun a => (h a).value) ls (ra :: rs)).headD 0)),
            ?_, ?_, ?_, ?_, ?_, ?_⟩
          · simp only [merge_ptr]
            rw [if_pos hlt, hstep2]
            simp only [Option.bind_eq_bind, Option.some_bind]
          · refine ⟨rfl, ?_⟩
            rw [next_setNext_self]
            exact chain_congr
              (fun a ha => next_setNext_ne _ _ _ (fun he : a = la => hlaM' (he ▸ ha))) hchain2
          · obtain ⟨m0, M'', hM'⟩ := List.exists_cons_of_ne_nil hM'ne
            rw [hM'] at hplM2 hprev2 ⊢
            refine ⟨?_, ?_⟩
            · rw [prev_setNext]
              simpa using hprev2
            · exact prevLinked_congr (m0 :: M'') (fun b _ => prev_setNext _ _ _ _) hplM2
          · rw [prev_setNext, hframe2 la hla_ls hla_r]
            exact prev_setPrev_self _ _ _
          · intro a
            rw [value_setNext, hvals2 a, value_setPrev]
          · intro a hal har
            have ha_la : a ≠ la := fun he => hal (he ▸ List.mem_cons_self _ _)
            have ha_ls : a ∉ ls := fun hm => hal (List.mem_cons_of_mem _ hm)
            rw [setNext_ne _ _ _ ha_la, hframe2 a ha_ls har, setPrev_ne _ _ _ ha_la]
        · -- tie or greater: the right head is emitted first
          have hih := ih (la :: ls) rs (setPrev h ra prevp)
            (some la) (((setPrev h ra prevp) ra).next) (some ra)
            (by simp only [List.length_cons] at hfl ⊢; omega)
            (by simp)
            (by
              rw [List.nodup_append]
              exact ⟨hndl, (List.nodup_cons.mp hndr).2,
                fun a ha hm => hdisj ha (List.mem_cons_of_mem _ hm)⟩)
            (chain_congr (fun a _ => next_setPrev _ _ _ _) ⟨rfl, hcl'⟩)
            (by
              rw [next_setPrev]
              exact chain_congr (fun a _ => next_setPrev _ _ _ _) hcr')
            (prevLinked_congr (la :: ls)
              (fun b hb => prev_setPrev_ne _ _ _
                (fun he => hra_l (he ▸ List.mem_cons_of_mem _ hb)))
              hpl)
            (prevLinked_congr rs
              (fun b hb => prev_setPrev_ne _ _ _
                (fun he => hra_rs (he ▸ List.mem_of_mem_tail hb)))
              hprs)
          obtain ⟨h2, hstep2, hchain2, hplM2, hprev2, hvals2, hframe2⟩ := hih
          have hval1 : (fun a => ((setPrev h ra prevp) a).value)
              = (fun a => (h a).value) := funext fun a => value_setPrev _ _ _ _
          rw [hval1] at hstep2 hchain2 hplM2 hprev2
          have hMeq : merge (fun a => (h a).value) (la :: ls) (ra :: rs)
              = ra :: merge (fun a => (h a).value) (la :: ls) rs := by
            rw [merge, if_neg hlt]
          have hlenM := (merge_perm (fun a => (h a).value) (la :: ls) rs).length_eq
          have hM'ne : merge (fun a => (h a).value) (la :: ls) rs ≠ [] := by
            intro h0
            rw [h0] at hlenM
            simp only [List.length_nil, List.length_cons, List.length_append] at hlenM
            omega
          have hraM' : ra ∉ merge (fun a => (h a).value) (la :: ls) rs := by
            intro hm
            have := (merge_perm (fun a => (h a).value) (la :: ls) rs).mem_iff.mp hm
            rw [List.mem_append] at this
            rcases this with hm1 | hm2
            · exact hra_l hm1
            · exact hra_rs hm2
          rw [hMeq]
          simp only [List.headD_cons]
          refine ⟨setNext h2 ra (some ((merge (fun a => (h a).value) (la :: ls) rs).headD 0)),
            ?_, ?_, ?_, ?_, ?_, ?_⟩
          · simp only [merge_ptr]
            rw [if_neg hlt, hstep2]
            simp only [Option.bind_eq_bind, Option.some_bind]
          · refine ⟨rfl, ?_⟩
            rw [next_setNext_self]
            exact chain_congr
              (fun a ha => next_setNext_ne _ _ _ (fun he : a = ra => hraM' (he ▸ ha))) hchain2
          · obtain ⟨m0, M'', hM'⟩ := List.exists_cons_of_ne_nil hM'ne
            rw [hM'] at hplM2 hprev2 ⊢
            refine ⟨?_, ?_⟩
            · rw [prev_setNext]
              simpa using hprev2
            · exact prevLinked_congr (m0 :: M'') (fun b _ => prev_setNext _ _ _ _) hplM2
          · rw [prev_setNext, hframe2 ra hra_l hra_rs]
            exact prev_setPrev_self _ _ _
          · intro a
            rw [value_setNext, hvals2 a, value_setPrev]
          · intro a hal har
            have ha_ra : a ≠ ra := fun he => har (he ▸ List.mem_cons_self _ _)
            have ha_rs : a ∉ rs := fun hm => har (List.mem_cons_of_mem _ hm)
            rw [setNext_ne _ _ _ ha_ra, hframe2 a hal ha_rs, setPrev_ne _ _ _ ha_ra]

theorem chain_last_next {h : Heap} :
    ∀ (l : List Addr) (d : Addr) (p q : Ptr), l ≠ [] → chain h p l q →
      (h (l.getLastD d)).next = q
  | [], _, _, _, hne, _ => absurd rfl hne
  | [a], d, p, q, _, hc => by
    have ha : [a].getLastD d = a := by simp
    rw [ha]
    exact hc.2
  | a :: b :: l, d, p, q, _, hc => by
    rw [List.getLastD_cons]
    exact chain_last_next (b :: l) a ((h a).next) q (by simp) hc.2

theorem getElem_take_last {α : Type} :
    ∀ (l : List α) (k : Nat) (d : α), k < l.length →
      l[k]? = some ((l.take (k + 1)).getLastD d)
  | [], k, d, hk => absurd hk (by simp)
  | a :: l', 0, d, _ => by simp
  | a :: l', k + 1, d, hk => by
    rw [List.getElem?_cons_succ, List.take_succ_cons, List.getLastD_cons]
    exact getElem_take_last l' k a (by simp only [List.length_cons] at hk; omega)

/-- `mergesort` (lines 328-345) at pointer level computes the value-level
`mergesort`: on a NULL-terminated chain it returns the head of the sorted
chain, the sorted chain's forward links follow the value-level `mergesort`,
its interior backward links are in place, every payload is preserved, and
no node outside the input chain is touched. -/
theorem mergesort_ptr_ok :
    ∀ (fuel : Nat) (ids : List Addr) (h : Heap) (head : Addr),
      ids.length < fuel →
      ids ≠ [] →
      ids.Nodup →
      chain h (some head) ids none →
      ∃ h', mergesort_ptr fuel h head
          = some (h', (mergesort (fun a => (h a).value) ids).headD 0) ∧
        chain h' (some ((mergesort (fun a => (h a).value) ids).headD 0))
          (mergesort (fun a => (h a).value) ids) none ∧
        prevLinked h' (mergesort (fun a => (h a).value) ids) ∧
        (∀ a, (h' a).value = (h a).value) ∧
        (∀ a, a ∉ ids → h' a = h a) := by
  intro fuel
  induction fuel with
  | zero =>
    intro ids h head hfl
    omega
  | succ fuel ih =>
    intro ids h head hfl hne hnd hc
    obtain ⟨tail, rfl⟩ : ∃ t, ids = head :: t := by
      cases ids with
      | nil => exact absurd rfl hne
      | cons x t =>
        have hx : head = x := Option.some_injective _ hc.1
        exact ⟨t, by rw [hx]⟩
    have hc' := hc.2
    cases tail with
    | nil =>
      have hnone : (h head).next = none := hc'
      have hMS : mergesort (fun a => (h a).value) [head] = [head] := by
        rw [mergesort]
      rw [hMS]
      refine ⟨h, ?_, ⟨rfl, hnone⟩, trivial, fun a => rfl, fun a _ => rfl⟩
      simp only [mergesort_ptr, hnone, List.headD_cons]
    | cons y rest =>
      have hy : (h head).next = some y := hc'.1
      have hkt : fastSteps (y :: rest) = (rest.length + 1) / 2 := by
        rw [fastSteps_eq]
        simp
      have hktlt : fastSteps (y :: rest) < (head :: y :: rest).length := by
        rw [hkt]
        simp only [List.length_cons]
        omega
      set L := (head :: y :: rest).take (fastSteps (y :: rest) + 1) with hLdef
      set R := (head :: y :: rest).drop (fastSteps (y :: rest) + 1) with hRdef
      have hsplit : head :: y :: rest = L ++ R := by
        rw [hLdef, hRdef, List.take_append_drop]
      have hLlen : L.length = fastSteps (y :: rest) + 1 := by
        rw [hLdef, List.length_take, hkt]
        simp only [List.length_cons]
        omega
      have hRlen : R.length = rest.length + 2 - (fastSteps (y :: rest) + 1) := by
        rw [hRdef, List.length_drop]
        simp
      have hLne : L ≠ [] := by
        intro h0
        rw [h0] at hLlen
        simp at hLlen
      have hRne : R ≠ [] := by
        intro h0
        rw [h0] at hRlen
        simp only [List.length_nil] at hRlen
        rw [hkt] at hRlen
        omega
      have hndLR : (L ++ R).Nodup := by
        rw [← hsplit]
        exact hnd
      have hndL : L.Nodup := (List.nodup_append.mp hndLR).1
      have hndR : R.Nodup := (List.nodup_append.mp hndLR).2.1
      have hdisj : L.Disjoint R := (List.nodup_append.mp hndLR).2.2
      have hcfull : chain h (some head) (L ++ R) none := by
        rw [← hsplit]
        exact hc
      obtain ⟨mp, hcL, hcR⟩ := chain_append_split hcfull
      obtain ⟨r0, R', hR⟩ := List.exists_cons_of_ne_nil hRne
      have hmp : mp = some r0 := by
        rw [hR] at hcR
        exact hcR.1
      have hcL' : chain h (some head) L (some r0) := by
        rw [← hmp]
        exact hcL
      have hcR' : chain h (some r0) R none := by
        rw [← hmp]
        exact hcR
      have hmid : (h (L.getLastD 0)).next = some r0 :=
        chain_last_next L 0 (some head) (some r0) hLne hcL'
      have hms : ms_split h (fuel + 1) head ((h head).next) = some (L.getLastD 0) := by
        have h1 := ms_split_ok (y :: rest) (fuel + 1) head (y :: rest) ((h head).next)
          (by simp only [List.length_cons] at hfl; rw [hkt]; omega)
          hc' ⟨rfl, hc'⟩
        rw [h1, hLdef]
        exact getElem_take_last _ _ _ hktlt
      have hfuelR : R.length < fuel := by
        rw [hRlen, hkt]
        simp only [List.length_cons] at hfl
        omega
      obtain ⟨hr1, hstepR, hchainR, hplR, hvalsR, hframeR⟩ := ih R h r0 hfuelR hRne hndR hcR'
      have hmidL : L.getLastD 0 ∈ L := getLastD_mem L 0 hLne
      have hchainL1 : chain hr1 (some head) L (some r0) :=
        chain_congr (fun a ha => by rw [hframeR a (fun hm => hdisj ha hm)]) hcL'
      have hchainL2 : chain (setNext hr1 (L.getLastD 0) none) (some head) L none :=
        chain_setNext_last L (some head) (some r0) hLne hndL hchainL1
      have hfuelL : L.length < fuel := by
        rw [hLlen, hkt]
        simp only [List.length_cons] at hfl
        omega
      obtain ⟨hl1, hstepL, hchainL, hplL, hvalsL, hframeL⟩ :=
        ih L (setNext hr1 (L.getLastD 0) none) head hfuelL hLne hndL hchainL2
      have hvalfun2 : (fun a => ((setNext hr1 (L.getLastD 0) none) a).value)
          = (fun a => (h a).value) := by
        funext a
        rw [value_setNext, hvalsR a]
      rw [hvalfun2] at hstepL hchainL hplL
      have hmemR : ∀ a ∈ mergesort (fun a => (h a).value) R, a ∈ R :=
        fun a ha => (mergesort_perm (fun a => (h a).value) R).mem_iff.mp ha
      have hmemL : ∀ a ∈ mergesort (fun a => (h a).value) L, a ∈ L :=
        fun a ha => (mergesort_perm (fun a => (h a).value) L).mem_iff.mp ha
      have hframe2 : ∀ a ∈ R, hl1 a = hr1 a := by
        intro a ha
        rw [hframeL a (fun hm => hdisj hm ha),
          setNext_ne _ _ _ (fun he : a = L.getLastD 0 => hdisj (by rw [he]; exact hmidL) ha)]
      have hchainR2 : chain hl1 (some ((mergesort (fun a => (h a).value) R).headD 0))
          (mergesort (fun a => (h a).value) R) none :=
        chain_congr (fun a ha => by rw [hframe2 a (hmemR a ha)]) hchainR
      have hplR2 : prevLinked hl1 (mergesort (fun a => (h a).value) R) :=
        prevLinked_congr _
          (fun b hb => by rw [hframe2 b (hmemR b (List.mem_of_mem_tail hb))]) hplR
      have hnodM : (mergesort (fun a => (h a).value) L
          ++ mergesort (fun a => (h a).value) R).Nodup := by
        refine (List.Perm.nodup_iff ?_).mpr hndLR
        exact List.Perm.append (mergesort_perm _ L) (mergesort_perm _ R)
      have hLMSne : mergesort (fun a => (h a).value) L ≠ [] := by
        intro h0
        have hq := (mergesort_perm (fun a => (h a).value) L).length_eq
        rw [h0, hLlen] at hq
        simp at hq
      have hihM := merge_ptr_ok (fuel + 1)
        (mergesort (fun a => (h a).value) L) (mergesort (fun a => (h a).value) R)
        hl1 (some ((mergesort (fun a => (h a).value) L).headD 0))
        (some ((mergesort (fun a => (h a).value) R).headD 0)) none
        (by
          have h1 := (mergesort_perm (fun a => (h a).value) L).length_eq
          have h2 := (mergesort_perm (fun a => (h a).value) R).length_eq
          have h3 : L.length + R.length = (head :: y :: rest).length := by
            rw [← List.length_append, ← hsplit]
          rw [h1, h2, h3]
          exact hfl)
        (by
          intro h0
          exact hLMSne (List.append_eq_nil.mp h0).1)
        hnodM
        hchainL
        hchainR2
        hplL
        hplR2
      obtain ⟨h3, hstepM, hchainM, hplM, hprevM, hvalsM, hframeM⟩ := hihM
      have hvalfunL : (fun a => (hl1 a).value) = (fun a => (h a).value) := by
        funext a
        rw [hvalsL a, value_setNext, hvalsR a]
      rw [hvalfunL] at hstepM hchainM hplM
      have hMSeq : mergesort (fun a => (h a).value) (head :: y :: rest)
          = merge (fun a => (h a).value) (mergesort (fun a => (h a).value) L)
              (mergesort (fun a => (h a).value) R) := by
        rw [hLdef, hRdef]
        exact mergesort_eq3 _ head y rest
      rw [hMSeq]
      refine ⟨h3, ?_, hchainM, hplM, ?_, ?_⟩
      · simp only [mergesort_ptr, hy]
        rw [hy] at hms
        rw [hms]
        simp only [Option.bind_eq_bind, Option.some_bind]
        rw [hmid]
        simp only [Option.some_bind]
        rw [hstepR]
        simp only [Option.some_bind]
        rw [hstepL]
        simp only [Option.some_bind]
        exact hstepM
      · intro a
        rw [hvalsM a, hvalsL a, value_setNext, hvalsR a]
      · intro a ha
        have haL : a ∉ L := fun hm => ha (by rw [hsplit]; exact List.mem_append_left _ hm)
        have haR : a ∉ R := fun hm => ha (by rw [hsplit]; exact List.mem_append_right _ hm)
        have haLMS : a ∉ mergesort (fun a => (h a).value) L := fun hm => haL (hmemL a hm)
        have haRMS : a ∉ mergesort (fun a => (h a).value) R := fun hm => haR (hmemR a hm)
        rw [hframeM a haLMS haRMS, hframeL a haL,
          setNext_ne _ _ _ (fun he : a = L.getLastD 0 => haL (by rw [he]; exact hmidL)),
          hframeR a haR]

/-- `q_sort` (lines 347-363) at pointer level preserves the circular
invariant and reorders the elements exactly as the value-level `mergesort`
of their payloads. -/
theorem q_sort_ptr_ring {h : Heap} {hd : Addr} {ids : List Addr} {fuel : Nat}
    (hr : represents h hd ids) (hfl : ids.length < fuel) :
    ∃ h', q_sort_ptr h hd fuel = some h' ∧
      represents h' hd (mergesort (fun a => (h a).value) ids) := by
  obtain ⟨hndall, hfw, hbw⟩ := hr
  have hhd_ids : hd ∉ ids := (List.nodup_cons.mp hndall).1
  have hnd_ids : ids.Nodup := (List.nodup_cons.mp hndall).2
  match ids, hndall, hfw, hbw, hhd_ids, hnd_ids, hfl with
  | [], hndall, hfw, hbw, hhd_ids, hnd_ids, hfl =>
    have hn : (h hd).next = some hd := by
      have := ring_next_eq hfw
      simpa using this
    have hMS : mergesort (fun a => (h a).value) ([] : List Addr) = [] := by
      rw [mergesort]
    rw [hMS]
    refine ⟨h, ?_, hndall, hfw, hbw⟩
    simp only [q_sort_ptr]
    rw [if_pos hn]
  | [x], hndall, hfw, hbw, hhd_ids, hnd_ids, hfl =>
    have hn : (h hd).next = some x := by
      have := ring_next_eq hfw
      simpa using this
    have hp : (h hd).prev = some x := by
      have := ring_prev_eq hbw
      simpa using this
    have hxhd : x ≠ hd := fun he => hhd_ids (he ▸ List.mem_cons_self _ _)
    have hne1 : (h hd).next ≠ some hd := by
      rw [hn]
      simpa using hxhd
    have hMS : mergesort (fun a => (h a).value) [x] = [x] := by
      rw [mergesort]
    rw [hMS]
    refine ⟨h, ?_, hndall, hfw, hbw⟩
    simp only [q_sort_ptr]
    rw [if_neg hne1, if_pos (by rw [hn, hp])]
  | x :: y :: rest, hndall, hfw, hbw, hhd_ids, hnd_ids, hfl =>
    have hn : (h hd).next = some x := by
      have := ring_next_eq hfw
      simpa using this
    have hp : (h hd).prev = some ((x :: y :: rest).getLastD hd) := ring_prev_eq hbw
    have hxhd : x ≠ hd := fun he => hhd_ids (he ▸ List.mem_cons_self _ _)
    have hne1 : (h hd).next ≠ some hd := by
      rw [hn]
      simpa using hxhd
    have hne2 : (h hd).next ≠ (h hd).prev :=
      represents_singular ⟨hndall, hfw, hbw⟩ (by simp)
    have hlst_mem : (x :: y :: rest).getLastD hd ∈ x :: y :: rest :=
      getLastD_mem _ hd (by simp)
    have hlst_hd : (x :: y :: rest).getLastD hd ≠ hd := fun he => hhd_ids (he ▸ hlst_mem)
    have hchain0 : chain h (some x) (x :: y :: rest) (some hd) := by
      rw [← hn]
      exact hfw.2
    have hchain1 : chain (setNext h ((x :: y :: rest).getLastD hd) none)
        (some x) (x :: y :: rest) none :=
      chain_setNext_last _ _ _ (by simp) hnd_ids hchain0
    obtain ⟨h2, hstepS, hchainS, hplS, hvalsS, hframeS⟩ :=
      mergesort_ptr_ok fuel (x :: y :: rest)
        (setNext h ((x :: y :: rest).getLastD hd) none) x hfl (by simp) hnd_ids hchain1
    have hvalfun : (fun a => ((setNext h ((x :: y :: rest).getLastD hd) none) a).value)
        = (fun a => (h a).value) := funext fun a => value_setNext _ _ _ _
    rw [hvalfun] at hstepS hchainS hplS
    have hpermMS := mergesort_perm (fun a => (h a).value) (x :: y :: rest)
    have hndMS : (mergesort (fun a => (h a).value) (x :: y :: rest)).Nodup :=
      (hpermMS.nodup_iff).mpr hnd_ids
    have hMSne : mergesort (fun a => (h a).value) (x :: y :: rest) ≠ [] := by
      intro h0
      have := hpermMS.length_eq
      rw [h0] at this
      simp at this
    have hmemMS : ∀ a ∈ mergesort (fun a => (h a).value) (x :: y :: rest),
        a ∈ x :: y :: rest := fun a ha => hpermMS.mem_iff.mp ha
    have hhdMS : hd ∉ mergesort (fun a => (h a).value) (x :: y :: rest) :=
      fun hm => hhd_ids (hmemMS _ hm)
    have hAmem : (mergesort (fun a => (h a).value) (x :: y :: rest)).headD 0
        ∈ mergesort (fun a => (h a).value) (x :: y :: rest) := by
      obtain ⟨m0, MS', hMS0⟩ := List.exists_cons_of_ne_nil hMSne
      rw [hMS0]
      simp
    have hZmem : (mergesort (fun a => (h a).value) (x :: y :: rest)).getLastD 0
        ∈ mergesort (fun a => (h a).value) (x :: y :: rest) :=
      getLastD_mem _ 0 hMSne
    have hA_hd : (mergesort (fun a => (h a).value) (x :: y :: rest)).headD 0 ≠ hd :=
      fun he => hhdMS (he ▸ hAmem)
    have hZ_hd : (mergesort (fun a => (h a).value) (x :: y :: rest)).getLastD 0 ≠ hd :=
      fun he => hhdMS (he ▸ hZmem)
    have hA_tail : ∀ b ∈ (mergesort (fun a => (h a).value) (x :: y :: rest)).tail,
        b ≠ (mergesort (fun a => (h a).value) (x :: y :: rest)).headD 0 := by
      obtain ⟨m0, MS', hMS0⟩ := List.exists_cons_of_ne_nil hMSne
      have hm0 : m0 ∉ MS' := by
        have h1 := hndMS
        rw [hMS0] at h1
        exact (List.nodup_cons.mp h1).1
      rw [hMS0]
      simp only [List.tail_cons, List.headD_cons]
      intro b hb he
      exact hm0 (he ▸ hb)
    -- the chain survives the sentinel re-attachment
    have hc3 : chain (setNext h2 hd
        (some ((mergesort (fun a => (h a).value) (x :: y :: rest)).headD 0)))
        (some ((mergesort (fun a => (h a).value) (x :: y :: rest)).headD 0))
        (mergesort (fun a => (h a).value) (x :: y :: rest)) none :=
      chain_congr (fun a ha => next_setNext_ne _ _ _ (fun he : a = hd => hhdMS (he ▸ ha)))
        hchainS
    have hc4 : chain (setPrev (setNext h2 hd
        (some ((mergesort (fun a => (h a).value) (x :: y :: rest)).headD 0)))
        ((mergesort (fun a => (h a).value) (x :: y :: rest)).headD 0) (some hd))
        (some ((mergesort (fun a => (h a).value) (x :: y :: rest)).headD 0))
        (mergesort (fun a => (h a).value) (x :: y :: rest)) none :=
      chain_congr (fun a _ => next_setPrev _ _ _ _) hc3
    have htl := sort_tail_walk_ok (mergesort (fun a => (h a).value) (x :: y :: rest))
      fuel ((mergesort (fun a => (h a).value) (x :: y :: rest)).headD 0) 0
      (by rw [hpermMS.length_eq]; omega) hc4
    refine ⟨setPrev (setNext (setPrev (setNext h2 hd
        (some ((mergesort (fun a => (h a).value) (x :: y :: rest)).headD 0)))
        ((mergesort (fun a => (h a).value) (x :: y :: rest)).headD 0) (some hd))
        ((mergesort (fun a => (h a).value) (x :: y :: rest)).getLastD 0) (some hd))
        hd (some ((mergesort (fun a => (h a).value) (x :: y :: rest)).getLastD 0)), ?_, ?_⟩
    · simp only [q_sort_ptr]
      rw [if_neg hne1, if_neg hne2, hp]
      simp only [Option.bind_eq_bind, Option.some_bind]
      rw [next_setNext_ne _ _ _ (fun he : hd = (x :: y :: rest).getLastD hd => hlst_hd he.symm),
        hn]
      simp only [Option.some_bind]
      rw [hstepS]
      simp only [Option.some_bind]
      rw [htl]
      simp only [Option.some_bind]
    · -- the rebuilt ring
      refine ⟨?_, ⟨rfl, ?_⟩, ⟨rfl, ?_⟩⟩
      · rw [List.nodup_cons]
        exact ⟨hhdMS, hndMS⟩
      · -- forward
        have hnext' : ((setPrev (setNext (setPrev (setNext h2 hd
            (some ((mergesort (fun a => (h a).value) (x :: y :: rest)).headD 0)))
            ((mergesort (fun a => (h a).value) (x :: y :: rest)).headD 0) (some hd))
            ((mergesort (fun a => (h a).value) (x :: y :: rest)).getLastD 0) (some hd))
            hd (some ((mergesort (fun a => (h a).value) (x :: y :: rest)).getLastD 0))) hd).next
            = some ((mergesort (fun a => (h a).value) (x :: y :: rest)).headD 0) := by
          rw [next_setPrev,
            next_setNext_ne _ _ _
              (fun he : hd = (mergesort (fun a => (h a).value) (x :: y :: rest)).getLastD 0 =>
                hZ_hd he.symm),
            next_setPrev, next_setNext_self]
        rw [hnext']
        refine chain_congr (fun a _ => next_setPrev _ _ _ _) ?_
        exact chain_setNext_last _ _ _ hMSne hndMS hc4
      · -- backward
        have hprev' : ((setPrev (setNext (setPrev (setNext h2 hd
            (some ((mergesort (fun a => (h a).value) (x :: y :: rest)).headD 0)))
            ((mergesort (fun a => (h a).value) (x :: y :: rest)).headD 0) (some hd))
            ((mergesort (fun a => (h a).value) (x :: y :: rest)).getLastD 0) (some hd))
            hd (some ((mergesort (fun a => (h a).value) (x :: y :: rest)).getLastD 0))) hd).prev
            = some ((mergesort (fun a => (h a).value) (x :: y :: rest)).getLastD 0) :=
          prev_setPrev_self _ _ _
        rw [hprev']
        have hplF : prevLinked (setPrev (setNext (setPrev (setNext h2 hd
            (some ((mergesort (fun a => (h a).value) (x :: y :: rest)).headD 0)))
            ((mergesort (fun a => (h a).value) (x :: y :: rest)).headD 0) (some hd))
            ((mergesort (fun a => (h a).value) (x :: y :: rest)).getLastD 0) (some hd))
            hd (some ((mergesort (fun a => (h a).value) (x :: y :: rest)).getLastD 0)))
            (mergesort (fun a => (h a).value) (x :: y :: rest)) := by
          refine prevLinked_congr _
            (fun b hb => prev_setPrev_ne _ _ _
              (fun he : b = hd => hhdMS (he ▸ List.mem_of_mem_tail hb))) ?_
          refine prevLinked_congr _ (fun b _ => prev_setNext _ _ _ _) ?_
          refine prevLinked_congr _
            (fun b hb => prev_setPrev_ne _ _ _ (hA_tail b hb)) ?_
          exact prevLinked_congr _ (fun b _ => prev_setNext _ _ _ _) hplS
        have hhead' : ((setPrev (setNext (setPrev (setNext h2 hd
            (some ((mergesort (fun a => (h a).value) (x :: y :: rest)).headD 0)))
            ((mergesort (fun a => (h a).value) (x :: y :: rest)).headD 0) (some hd))
            ((mergesort (fun a => (h a).value) (x :: y :: rest)).getLastD 0) (some hd))
            hd (some ((mergesort (fun a => (h a).value) (x :: y :: rest)).getLastD 0)))
            ((mergesort (fun a => (h a).value) (x :: y :: rest)).headD 0)).prev = some hd := by
          rw [prev_setPrev_ne _ _ _ hA_hd, prev_setNext, prev_setPrev_self]
        exact chainP_of_prevLinked _ 0 (some hd) hMSne hplF hhead'

/-- A concrete FIFO round trip at pointer level: a fresh queue (sentinel at
address 0, self-linked), `q_insert_tail` of the strings a, b, c at fresh
addresses 1, 2, 3, then three `q_remove_head`.  The run returns the three
removed values together with the invariant check after each removal. -/
def fifo_run : Option (Str × Str × Str × Bool × Bool × Bool) := do
  let h0 : Heap := fun _ => ⟨some 0, some 0, []⟩
  let h1 ← q_insert_tail_ptr h0 0 1 [0]
  let h2 ← q_insert_tail_ptr h1 0 2 [1]
  let h3 ← q_insert_tail_ptr h2 0 3 [2]
  let r1 ← q_remove_head_ptr h3 0
  let a1 ← r1.2
  let r2 ← q_remove_head_ptr r1.1 0
  let a2 ← r2.2
  let r3 ← q_remove_head_ptr r2.1 0
  let a3 ← r3.2
  some ((r1.1 a1).value, (r2.1 a2).value, (r3.1 a3).value,
    decide (represents r1.1 0 [2, 3]), decide (represents r2.1 0 [3]),
    decide (represents r3.1 0 []))

theorem strncpy_bytes_eq (src : Str) (n : Nat) :
    strncpy_bytes src n
      = (src.take n).map (fun b => b + 1) ++ List.replicate (n - src.length) 0 := by
  refine List.ext_getElem ?_ ?_
  · simp [strncpy_bytes]
    omega
  · intro i h1 h2
    simp only [strncpy_bytes, List.getElem_map, List.getElem_range]
    by_cases hi : i < src.length
    · have hlt : i < ((src.take n).map (fun b => b + 1)).length := by
        simp only [strncpy_bytes, List.length_map, List.length_range] at h1
        simp only [List.length_map, List.length_take]
        omega
      rw [List.getElem_append_left hlt]
      simp only [List.getElem_map, List.getElem_take]
      simp [hi]
    · have hge : ((src.take n).map (fun b => b + 1)).length ≤ i := by
        simp only [List.length_map, List.length_take]
        omega
      rw [List.getElem_append_right hge]
      simp [hi, List.getElem_replicate]

/-!
## The claims
-/

/-- C1 — on every queue of at least two elements, `q_sort` produces a chain
that is ascending under byte-wise `strcmp` and is a permutation of the
input values: nothing is gained or lost, elements are only reordered. -/
theorem q_sort_ascending_perm (vs : List Str) (h : 2 ≤ vs.length) :
    List.Sorted strLe (q_sort vs) ∧ List.Perm (q_sort vs) vs := by
  rw [q_sort_eq_mergesort vs h]
  exact ⟨mergesort_sorted (fun s => s) vs, mergesort_perm (fun s => s) vs⟩

theorem q_sort_ascending_perm_witness :
    2 ≤ ([[1], [0], [2]] : List Str).length ∧
      (List.Sorted strLe (q_sort [[1], [0], [2]]) ∧
        List.Perm (q_sort [[1], [0], [2]]) [[1], [0], [2]]) :=
  ⟨by decide, q_sort_ascending_perm [[1], [0], [2]] (by decide)⟩

/-- C2 (counterexample) — the sort is not stable for element identity: on a
queue of two elements with byte-equal values (tagged here with identities
`1` and `2` through the generic element type, values compared exactly as the
code compares them), `mergesort` emits the second element before the first,
so equal-comparing elements do not retain their relative input order. -/
theorem q_sort_stability_counterexample :
    mergesort (fun e : Str × Nat => e.1) [([0], 1), ([0], 2)] = [([0], 2), ([0], 1)] ∧
      (([0], 1) : Str × Nat) ≠ (([0], 2) : Str × Nat) := by
  constructor
  · simp [mergesort, merge, fastSteps, strcmp]
  · decide

/-- C2 (amended) — on a tie (`strcmp = 0`) the merge step takes the head of
the right (later) chain first, so two equal-comparing elements that end up
in different halves have their relative order reversed; since equal keys
are byte-identical strings, the value sequence is still the one C1
guarantees. -/
theorem merge_tie_takes_right {α : Type} (val : α → Str) (l r : α) (ls rs : List α)
    (h : strcmp (val l) (val r) = 0) :
    merge val (l :: ls) (r :: rs) = r :: merge val (l :: ls) rs := by
  rw [merge, if_neg (by omega)]

theorem merge_tie_takes_right_witness :
    strcmp [0] [0] = 0 ∧
      merge (fun s : Str => s) [[0]] [[0]] = [0] :: merge (fun s : Str => s) [[0]] [] :=
  ⟨by decide, merge_tie_takes_right (fun s : Str => s) [0] [0] [] [] (by decide)⟩

/-- A concrete three-element circular queue (sentinel at address 0) used to
instantiate the invariant-preservation theorem. -/
def sampleRing : Heap := fun a =>
  if a = 0 then ⟨some 1, some 2, []⟩
  else if a = 1 then ⟨some 2, some 0, [5]⟩
  else if a = 2 then ⟨some 0, some 1, [3]⟩
  else ⟨none, none, []⟩

/-- C3 — every public operation preserves the circular doubly-linked
invariant `represents`: starting from any heap in which the sentinel `hd`
rings through exactly the live elements `ids` (forward by `next`, backward
by `prev`), each of `q_insert_head`, `q_insert_tail`, `q_remove_head`,
`q_remove_tail`, `q_delete_mid`, `q_delete_dup`, `q_swap`, `q_reverse`,
`q_sort` and `q_size` succeeds and leaves a heap in which the sentinel
again rings through exactly the corresponding live elements, with `prev`
the exact reverse traversal (the fresh address `nw` models the allocation
of the inserts; `fuel` bounds the loops strictly above the queue length). -/
theorem public_ops_preserve_ring {h : Heap} {hd nw : Addr} {ids : List Addr}
    {fuel : Nat} (s : Str)
    (hr : represents h hd ids) (hnw : nw ∉ hd :: ids) (hfl : ids.length < fuel) :
    (∃ h', q_insert_head_ptr h hd nw s = some h' ∧ represents h' hd (nw :: ids)) ∧
    (∃ h', q_insert_tail_ptr h hd nw s = some h' ∧ represents h' hd (ids ++ [nw])) ∧
    (∃ h' r, q_remove_head_ptr h hd = some (h', r) ∧ represents h' hd ids.tail) ∧
    (∃ h' r, q_remove_tail_ptr h hd = some (h', r) ∧ represents h' hd ids.dropLast) ∧
    (∃ b h', q_delete_mid_ptr h hd fuel = some (b, h') ∧
      represents h' hd (if ids = [] then ids else ids.eraseIdx (ids.length / 2))) ∧
    (∃ h', q_delete_dup_ptr h hd fuel = some h' ∧
      represents h' hd (delDupGo (fun a => (h a).value) ids)) ∧
    (∃ h', q_swap_ptr h hd fuel = some h' ∧ represents h' hd (swapPairs ids)) ∧
    (∃ h', q_reverse_ptr h hd fuel = some h' ∧ represents h' hd ids.reverse) ∧
    (∃ h', q_sort_ptr h hd fuel = some h' ∧
      represents h' hd (mergesort (fun a => (h a).value) ids)) ∧
    q_size_ptr h hd fuel = some ids.length := by
  refine ⟨q_insert_head_ptr_ring s hr hnw, q_insert_tail_ptr_ring s hr hnw,
    ?_, ?_, ?_, q_delete_dup_ptr_ring hr hfl, q_swap_ptr_ring hr hfl,
    q_reverse_ptr_ring hr hfl, q_sort_ptr_ring hr hfl, q_size_ptr_ring hr hfl⟩
  · cases ids with
    | nil => exact ⟨h, none, q_remove_head_ptr_empty hr, hr⟩
    | cons a t =>
      obtain ⟨h', hstep, hrep⟩ := q_remove_head_ptr_ring hr
      exact ⟨h', some a, hstep, hrep⟩
  · rcases List.eq_nil_or_concat ids with rfl | ⟨A, e, rfl⟩
    · exact ⟨h, none, q_remove_tail_ptr_empty hr, hr⟩
    · rw [List.concat_eq_append] at hr ⊢
      obtain ⟨h', hstep, hrep⟩ := q_remove_tail_ptr_ring hr
      refine ⟨h', some e, hstep, ?_⟩
      rw [List.dropLast_concat]
      exact hrep
  · cases ids with
    | nil =>
      refine ⟨false, h, q_delete_mid_ptr_empty fuel hr, ?_⟩
      rw [if_pos rfl]
      exact hr
    | cons a t =>
      obtain ⟨h', hstep, hrep⟩ := q_delete_mid_ptr_ring hr (by simp) hfl
      refine ⟨true, h', hstep, ?_⟩
      rw [if_neg (by simp)]
      exact hrep

/-- Witness for C3: the theorem applied to a concrete three-element ring,
with the invariant, the freshness of the new address and the fuel bound all
checked by evaluation. -/
theorem public_ops_preserve_ring_witness :
    (represents sampleRing 0 [1, 2] ∧ (3 : Addr) ∉ (0 : Addr) :: [1, 2]
      ∧ ([1, 2] : List Addr).length < 5) ∧
    ((∃ h', q_insert_head_ptr sampleRing 0 3 [9] = some h'
        ∧ represents h' 0 (3 :: [1, 2])) ∧
     (∃ h', q_insert_tail_ptr sampleRing 0 3 [9] = some h'
        ∧ represents h' 0 ([1, 2] ++ [3])) ∧
     (∃ h' r, q_remove_head_ptr sampleRing 0 = some (h', r)
        ∧ represents h' 0 ([1, 2] : List Addr).tail) ∧
     (∃ h' r, q_remove_tail_ptr sampleRing 0 = some (h', r)
        ∧ represents h' 0 ([1, 2] : List Addr).dropLast) ∧
     (∃ b h', q_delete_mid_ptr sampleRing 0 5 = some (b, h') ∧
       represents h' 0 (if ([1, 2] : List Addr) = [] then [1, 2]
         else ([1, 2] : List Addr).eraseIdx (([1, 2] : List Addr).length / 2))) ∧
     (∃ h', q_delete_dup_ptr sampleRing 0 5 = some h' ∧
       represents h' 0 (delDupGo (fun a => (sampleRing a).value) [1, 2])) ∧
     (∃ h', q_swap_ptr sampleRing 0 5 = some h' ∧ represents h' 0 (swapPairs [1, 2])) ∧
     (∃ h', q_reverse_ptr sampleRing 0 5 = some h'
        ∧ represents h' 0 ([1, 2] : List Addr).reverse) ∧
     (∃ h', q_sort_ptr sampleRing 0 5 = some h' ∧
       represents h' 0 (mergesort (fun a => (sampleRing a).value) [1, 2])) ∧
     q_size_ptr sampleRing 0 5 = some ([1, 2] : List Addr).length) :=
  ⟨⟨by decide, by decide, by decide⟩,
   public_ops_preserve_ring [9] (by decide) (by decide) (by decide)⟩

/-- C4 — `q_delete_mid` fails on an absent or empty queue; on any non-empty
queue it succeeds and removes exactly the element at zero-based index
`⌊n/2⌋`, leaving the rest in their original order. -/
theorem q_delete_mid_spec (vs : List Str) (h : vs ≠ []) :
    q_delete_mid none = (false, none) ∧
      q_delete_mid (some []) = (false, some []) ∧
      q_delete_mid (some vs) = (true, some (vs.eraseIdx (vs.length / 2))) := by
  refine ⟨rfl, rfl, ?_⟩
  match vs, h with
  | x :: t, _ => simp [q_delete_mid, fastSteps_eq]

theorem q_delete_mid_spec_witness :
    ([[1], [2], [3], [4], [5], [6]] : List Str) ≠ [] ∧
      (q_delete_mid none = (false, none) ∧
        q_delete_mid (some []) = (false, some []) ∧
        q_delete_mid (some [[1], [2], [3], [4], [5], [6]])
          = (true, some (([[1], [2], [3], [4], [5], [6]] : List Str).eraseIdx
              (([[1], [2], [3], [4], [5], [6]] : List Str).length / 2)))) :=
  ⟨by decide, q_delete_mid_spec [[1], [2], [3], [4], [5], [6]] (by decide)⟩

theorem q_delete_dup_sorted_witness :
    List.Sorted strLe ([[0], [0], [1], [2], [2], [2]] : List Str) ∧
      q_delete_dup (some [[0], [0], [1], [2], [2], [2]])
        = (true, some (([[0], [0], [1], [2], [2], [2]] : List Str).filter
            (fun v => ([[0], [0], [1], [2], [2], [2]] : List Str).count v == 1))) :=
  ⟨by decide, q_delete_dup_sorted [[0], [0], [1], [2], [2], [2]] (by decide)⟩

/-- C6 (counterexample) — `q_delete_dup` on an absent (NULL) queue handle
does not report success: line 233-235 returns `false`. -/
theorem q_delete_dup_null_counterexample : (q_delete_dup none).1 ≠ true := by
  decide

/-- C6 (amended) — `q_delete_dup` called with an absent queue handle
returns failure (`false`) and leaves nothing to modify, exactly as the
code's own contract ("Return false if list is NULL") states. -/
theorem q_delete_dup_null : q_delete_dup none = (false, none) := rfl

/-- C7 (amended) — for every `size_t` buffer size of at least 1, the
removed element's string is copied into `sp` truncated to at most
`bufsize - 1` bytes plus NUL padding and a terminator; the copy writes no
offset outside `[0, bufsize - 1]` and reads no source offset past the
string's terminator.  (For `bufsize = 0` the claim fails, see the
counterexample: `bufsize - 1` wraps around in `size_t`.) -/
theorem remove_copy_safe (src : Str) (bufsize : Nat)
    (h1 : 1 ≤ bufsize) (h2 : bufsize < sizeMod) :
    (∀ i ∈ remove_copy_writes bufsize, i < bufsize) ∧
      (∀ i ∈ remove_copy_reads src bufsize, i ≤ src.length) ∧
      remove_copy_buf src bufsize
        = (src.take (bufsize - 1)).map (fun b => b + 1)
            ++ List.replicate (bufsize - 1 - src.length) 0 ++ [0] ∧
      (remove_copy_buf src bufsize).length = bufsize := by
  have hb : bufsizeSub1 bufsize = bufsize - 1 := by
    unfold bufsizeSub1 sizeMod
    unfold sizeMod at h2
    omega
  refine ⟨?_, ?_, ?_, ?_⟩
  · intro i hi
    rw [remove_copy_writes, hb, List.mem_append, List.mem_range] at hi
    rcases hi with hi | hi
    · omega
    · rw [List.mem_singleton] at hi
      omega
  · intro i hi
    rw [remove_copy_reads, List.mem_range] at hi
    omega
  · rw [remove_copy_buf, hb, strncpy_bytes_eq]
  · rw [remove_copy_buf, hb]
    simp only [List.length_append, strncpy_bytes, List.length_map, List.length_range,
      List.length_cons, List.length_nil]
    omega

theorem remove_copy_safe_witness :
    1 ≤ 3 ∧ 3 < sizeMod ∧
      ((∀ i ∈ remove_copy_writes 3, i < 3) ∧
        (∀ i ∈ remove_copy_reads [5] 3, i ≤ ([5] : Str).length) ∧
        remove_copy_buf [5] 3
          = (([5] : Str).take 2).map (fun b => b + 1)
              ++ List.replicate (2 - ([5] : Str).length) 0 ++ [0] ∧
        (remove_copy_buf [5] 3).length = 3) :=
  ⟨by decide, by norm_num [sizeMod], remove_copy_safe [5] 3 (by decide) (by norm_num [sizeMod])⟩

/-- C7 (counterexample) — with `bufsize = 0` the claim fails: `bufsize - 1`
wraps to `SIZE_MAX`, and the copy writes offset `0` (among a huge range of
others) although the claimed write window `[0, bufsize - 1]` is empty. -/
theorem remove_copy_bufsize_zero : 0 ∈ remove_copy_writes 0 ∧ ¬ (0 : Nat) < 0 := by
  constructor
  · rw [remove_copy_writes, List.mem_append]
    left
    rw [List.mem_range]
    unfold bufsizeSub1 sizeMod
    norm_num
  · simp

/-- C8 (counterexample) — inserting with a NULL string argument succeeds
and links an element whose payload is NULL (line 62 of `new_element`), so
not every successful operation leaves only non-null payloads linked. -/
theorem q_insert_head_null_payload :
    q_insert_head_e (some []) none = (true, some [new_element none]) ∧
      (new_element none).value = none :=
  ⟨rfl, rfl⟩

/-- C8 (amended) — for every non-null string argument, both inserts succeed
and link an element whose payload is a non-null copy of that string; and if
every payload already linked is non-null, that invariant survives the
insertion.  (A NULL argument instead links a NULL payload, see the
counterexample.) -/
theorem q_insert_nonnull_payload (es : List element_t) (s : Str)
    (h : ∀ e ∈ es, e.value ≠ none) :
    q_insert_head_e (some es) (some s) = (true, some (new_element (some s) :: es)) ∧
      (new_element (some s)).value = some s ∧
      (∀ e ∈ new_element (some s) :: es, e.value ≠ none) ∧
      q_insert_tail_e (some es) (some s) = (true, some (es ++ [new_element (some s)])) ∧
      (∀ e ∈ es ++ [new_element (some s)], e.value ≠ none) := by
  refine ⟨rfl, rfl, ?_, rfl, ?_⟩
  · intro e he
    rcases List.mem_cons.1 he with rfl | he
    · simp [new_element]
    · exact h e he
  · intro e he
    rcases List.mem_append.1 he with he | he
    · exact h e he
    · rw [List.mem_singleton] at he
      subst he
      simp [new_element]

theorem q_insert_nonnull_payload_witness :
    (∀ e ∈ ([] : List element_t), e.value ≠ none) ∧
      (q_insert_head_e (some []) (some [7]) = (true, some [new_element (some [7])]) ∧
        (new_element (some [7])).value = some [7] ∧
        (∀ e ∈ [new_element (some [7])], e.value ≠ none) ∧
        q_insert_tail_e (some []) (some [7]) = (true, some [new_element (some [7])]) ∧
        (∀ e ∈ [new_element (some [7])], e.value ≠ none)) :=
  ⟨by simp, q_insert_nonnull_payload [] [7] (by simp)⟩

/-- C10 — the recursive sort terminates on every finite chain: on any chain
of length at least 2 the slow/fast split produces two strictly shorter
chains, the merge of two finite chains is a finite chain of the summed
length, and `mergesort` itself is a total function preserving chain
length. -/
theorem mergesort_terminates (c : List Str) (h : 2 ≤ c.length) :
    (c.take (fastSteps c.tail + 1)).length < c.length ∧
      (c.drop (fastSteps c.tail + 1)).length < c.length ∧
      (∀ l r : List Str, (merge (fun s => s) l r).length = l.length + r.length) ∧
      (mergesort (fun s => s) c).length = c.length := by
  refine ⟨?_, ?_, ?_, ?_⟩
  · simp only [List.length_take, fastSteps_eq, List.length_tail]
    omega
  · simp only [List.length_drop, fastSteps_eq, List.length_tail]
    omega
  · intro l r
    have := (merge_perm (fun s : Str => s) l r).length_eq
    simpa using this
  · exact (mergesort_perm (fun s : Str => s) c).length_eq

/-- C9 — FIFO round trip at pointer level: from the empty queue,
`insert_tail` of a, b, c (addresses 1, 2, 3) followed by three
`remove_head` hands back the elements with values a, b, c in that order,
every step succeeds without touching an invalid pointer, and after each
removal the remaining chain satisfies the full circular invariant (forward
traversal visits the live elements once and returns to the sentinel, and
backward traversal is its exact reverse). -/
theorem fifo_roundtrip :
    fifo_run = some ([0], [1], [2], true, true, true) := by
  decide

theorem mergesort_terminates_witness :
    2 ≤ ([[0], [1]] : List Str).length ∧
      ((([[0], [1]] : List Str).take (fastSteps ([[0], [1]] : List Str).tail + 1)).length
          < ([[0], [1]] : List Str).length ∧
        ((([[0], [1]] : List Str).drop (fastSteps ([[0], [1]] : List Str).tail + 1)).length
          < ([[0], [1]] : List Str).length) ∧
        (∀ l r : List Str, (merge (fun s => s) l r).length = l.length + r.length) ∧
        (mergesort (fun s => s) [[0], [1]]).length = ([[0], [1]] : List Str).length) :=
  ⟨by decide, mergesort_terminates [[0], [1]] (by decide)⟩

end LabQueue
